import Mathlib

/-!
Verification of the olu schemaless entity store against its design notes.

The development shallowly embeds the Go sources: documents are association
lists of JSON values, the in-memory indexed graph is a pair of association
maps (adjacency and its reverse mirror), the two storage backends keep their
state in explicit record structures, and each Go function that the properties
mention is translated into a Lean function over those states.  Strings are
modelled as lists of characters so that the byte-level splitting done by the
graph persistence codec can be reasoned about directly.
-/

set_option maxHeartbeats 1000000

namespace Olu

/-- Strings of the Go program, modelled as lists of characters. -/
abbrev Str := List Char

/-- Converts a Lean string literal to the character-list model. -/
def chars (s : String) : Str := s.data

/-- Go map lookup on an association list: first matching key wins. -/
def lookupA {α β : Type} [DecidableEq α] : List (α × β) → α → Option β
  | [], _ => none
  | (k, v) :: rest, a => if k = a then some v else lookupA rest a

/-- Go map assignment: replace the value of an existing key in place,
otherwise append a fresh entry. -/
def insertA {α β : Type} [DecidableEq α] : List (α × β) → α → β → List (α × β)
  | [], a, b => [(a, b)]
  | (k, v) :: rest, a, b =>
      if k = a then (k, b) :: rest else (k, v) :: insertA rest a b

/-- Go map key deletion. -/
def eraseA {α β : Type} [DecidableEq α] : List (α × β) → α → List (α × β)
  | [], _ => []
  | (k, v) :: rest, a =>
      if k = a then eraseA rest a else (k, v) :: eraseA rest a

/-- Presence test of a key, mirroring the comma-ok idiom on Go maps. -/
def memKeyA {α β : Type} [DecidableEq α] (m : List (α × β)) (a : α) : Bool :=
  (lookupA m a).isSome

theorem lookupA_insertA {α β : Type} [DecidableEq α]
    (m : List (α × β)) (a : α) (b : β) (x : α) :
    lookupA (insertA m a b) x = if x = a then some b else lookupA m x := by
  induction m with
  | nil =>
      simp only [insertA, lookupA]
      rcases eq_or_ne x a with h | h
      · simp [h]
      · simp [h, Ne.symm h]
  | cons kv rest ih =>
      obtain ⟨k, v⟩ := kv
      simp only [insertA]
      rcases eq_or_ne k a with hk | hk
      · subst hk
        simp only [if_pos rfl, lookupA]
        rcases eq_or_ne k x with h | h
        · subst h; simp
        · simp [h, Ne.symm h]
      · simp only [if_neg hk, lookupA]
        rcases eq_or_ne k x with h | h
        · subst h; simp [hk]
        · simp [h, ih]

theorem lookupA_eraseA {α β : Type} [DecidableEq α]
    (m : List (α × β)) (a x : α) :
    lookupA (eraseA m a) x = if x = a then none else lookupA m x := by
  induction m with
  | nil => simp [eraseA, lookupA]
  | cons kv rest ih =>
      obtain ⟨k, v⟩ := kv
      simp only [eraseA]
      rcases eq_or_ne k a with hk | hk
      · subst hk
        rw [if_pos rfl, ih]
        rcases eq_or_ne x k with h | h
        · simp [h]
        · simp [h, lookupA, Ne.symm h]
      · simp only [if_neg hk, lookupA]
        rcases eq_or_ne k x with h | h
        · subst h; simp [hk]
        · simp [h, ih]

theorem memKeyA_insertA {α β : Type} [DecidableEq α]
    (m : List (α × β)) (a : α) (b : β) (x : α) :
    memKeyA (insertA m a b) x = (x = a ∨ memKeyA m x = true) := by
  simp only [memKeyA, lookupA_insertA]
  rcases eq_or_ne x a with h | h <;> simp [h]

theorem lookupA_eq_none_of_not_mem {α β : Type} [DecidableEq α]
    (l : List (α × β)) (k : α) (h : k ∉ l.map Prod.fst) :
    lookupA l k = none := by
  induction l with
  | nil => rfl
  | cons kv rest ih =>
      simp only [List.map_cons, List.mem_cons] at h
      push_neg at h
      have h1 : ¬ kv.1 = k := fun hh => h.1 hh.symm
      simp [lookupA, h1, ih h.2]

/-- JSON values as decoded by the Go program.  Numbers are modelled as
rationals: both decoded float64 values and programmatically stored Go ints
denote the same rational, and a float is an exact integer precisely when the
denominator is one. -/
inductive JVal where
  | null : JVal
  | bool (b : Bool) : JVal
  | num (q : Rat) : JVal
  | str (s : Str) : JVal
  | arr (elems : List JVal) : JVal
  | obj (fields : List (Str × JVal)) : JVal

/-- A document: the decoded JSON object stored against an (entity, id) pair. -/
abbrev Doc := List (Str × JVal)

/-- Truncation of a rational toward zero, the effect of the Go conversion
int(v) on a float64 value. -/
def truncRat (q : Rat) : Int := Int.tdiv q.num q.den

/-- The reference record produced by models.IsReference. -/
structure Reference where
  type : Str
  entity : Str
  id : Int
deriving DecidableEq

/-- Translation of models.IsReference: a map with a string type field equal
to REF, a string entity field and a numeric id field yields a reference; the
id is truncated toward zero when it arrives as a float. -/
def IsReference (v : JVal) : Option Reference :=
  match v with
  | .obj m =>
      match lookupA m (chars "type") with
      | some (.str typeVal) =>
          match lookupA m (chars "entity") with
          | some (.str entityVal) =>
              match lookupA m (chars "id") with
              | some idVal =>
                  if typeVal = chars "REF" then
                    match idVal with
                    | .num q => some ⟨typeVal, entityVal, truncRat q⟩
                    | _ => none
                  else none
              | none => none
          | _ => none
      | _ => none
  | _ => none

/-- The reference shape that models.IsReference actually accepts: an object
whose type field is the string REF, whose entity field is any string, and
whose id field is any number. -/
def refShapeB (v : JVal) : Bool :=
  match v with
  | .obj m =>
      match lookupA m (chars "type"), lookupA m (chars "entity"),
            lookupA m (chars "id") with
      | some (.str typeVal), some (.str _), some (.num _) =>
          typeVal = chars "REF"
      | _, _, _ => false
  | _ => false

/-- The reference predicate as the design notes state it: type REF, a
non-empty entity string, and an id that is an exact integer at least one. -/
def refSpecB (v : JVal) : Bool :=
  match v with
  | .obj m =>
      match lookupA m (chars "type"), lookupA m (chars "entity"),
            lookupA m (chars "id") with
      | some (.str typeVal), some (.str entityVal), some (.num q) =>
          typeVal = chars "REF" ∧ entityVal ≠ [] ∧ q.den = 1 ∧ 1 ≤ q.num
      | _, _, _ => false
  | _ => false

/-- Decimal rendering of a natural number, as produced by the Go verb %d. -/
def natRepr (n : Nat) : Str := Nat.toDigits 10 n

/-- Decimal rendering of a Go int. -/
def intRepr (i : Int) : Str :=
  if i < 0 then '-' :: natRepr (-i).toNat else natRepr i.toNat

/-- Composite node identifier, the Go expression fmt.Sprintf of entity, a
colon and the decimal id. -/
def nodeIDStr (entity : Str) (id : Int) : Str := entity ++ ':' :: intRepr id

/-- Inner adjacency map of one node: neighbour identifier to relationship. -/
abbrev NbrMap := List (Str × Str)

/-- State of graph.IndexedGraph: adjacency, its reverse mirror, and the
type/property index. -/
structure IndexedGraph where
  adjacency : List (Str × NbrMap)
  reverse : List (Str × NbrMap)
  index : List (Str × List Str)

/-- The graph produced by NewIndexedGraph. -/
def emptyGraph : IndexedGraph := ⟨[], [], []⟩

/-- Two-level lookup: the relationship stored on the edge from u to v. -/
def lookup2 (m : List (Str × NbrMap)) (u v : Str) : Option Str :=
  match lookupA m u with
  | none => none
  | some inner => lookupA inner v

/-- Registers a node with empty adjacency and reverse entries when it is not
yet present, as both AddNode and AddEdge do before touching edges. -/
def ensureNode (g : IndexedGraph) (n : Str) : IndexedGraph :=
  if memKeyA g.adjacency n then g
  else { g with adjacency := g.adjacency ++ [(n, [])],
                reverse := g.reverse ++ [(n, [])] }

/-- Assignment of one edge entry inside a two-level map. -/
def setEdge (m : List (Str × NbrMap)) (u v r : Str) : List (Str × NbrMap) :=
  insertA m u (insertA ((lookupA m u).getD []) v r)

/-- Appends a node to one bucket of the type/property index. -/
def indexAppend (m : List (Str × List Str)) (k : Str) (n : Str) :
    List (Str × List Str) :=
  insertA m k (((lookupA m k).getD []) ++ [n])

/-- Translation of IndexedGraph.AddNode. -/
def AddNode (g : IndexedGraph) (nodeID nodeType : Str) : IndexedGraph :=
  let g1 := ensureNode g nodeID
  if nodeType = [] then g1
  else { g1 with index := indexAppend g1.index nodeType nodeID }

/-- The paired assignment of an edge into the adjacency map and its mirror
into the reverse map, the two consecutive assignments of AddEdge and of the
load loop. -/
def setEdgePair (g : IndexedGraph) (u v r : Str) : IndexedGraph :=
  { g with adjacency := setEdge g.adjacency u v r,
           reverse := setEdge g.reverse v u r }

/-- Translation of IndexedGraph.AddEdge. -/
def AddEdge (g : IndexedGraph) (frm toN rel : Str) : IndexedGraph :=
  let g1 := ensureNode g frm
  let g2 := ensureNode g1 toN
  let g3 := setEdgePair g2 frm toN rel
  { g3 with index := indexAppend g3.index (chars "relationship:" ++ rel) frm }

/-- Translation of IndexedGraph.RemoveEdge. -/
def RemoveEdge (g : IndexedGraph) (frm toN : Str) : IndexedGraph :=
  let adj := match lookupA g.adjacency frm with
    | some inner => insertA g.adjacency frm (eraseA inner toN)
    | none => g.adjacency
  let rev := match lookupA g.reverse toN with
    | some inner => insertA g.reverse toN (eraseA inner frm)
    | none => g.reverse
  { g with adjacency := adj, reverse := rev }

/-- Translation of IndexedGraph.RemoveNode: the node entry disappears from
both maps, every remaining inner map loses the node, and the index buckets
are filtered with empty buckets deleted. -/
def RemoveNode (g : IndexedGraph) (nodeID : Str) : IndexedGraph :=
  { adjacency := (eraseA g.adjacency nodeID).map (fun p => (p.1, eraseA p.2 nodeID)),
    reverse := (eraseA g.reverse nodeID).map (fun p => (p.1, eraseA p.2 nodeID)),
    index := ((g.index.map (fun p => (p.1, p.2.filter (· ≠ nodeID)))).filter
      (fun p => ¬ p.2 = [])) }

/-- Translation of IndexedGraph.Clear. -/
def Clear (_ : IndexedGraph) : IndexedGraph := emptyGraph

/-- Translation of IndexedGraph.GetNeighbors: the copied outgoing map, empty
when the node is unknown. -/
def GetNeighbors (g : IndexedGraph) (nodeID : Str) : NbrMap :=
  (lookupA g.adjacency nodeID).getD []

/-- Translation of IndexedGraph.GetIncomingEdges. -/
def GetIncomingEdges (g : IndexedGraph) (nodeID : Str) : NbrMap :=
  (lookupA g.reverse nodeID).getD []

/-- The Go comma-ok string assertion on a document field, yielding the empty
string when the field is absent or not a string. -/
def strFieldD (d : Doc) (k : Str) : Str :=
  match lookupA d k with
  | some (.str s) => s
  | _ => []

/-- Translation of IndexedGraph.UpdateFromEntity: add the node, then add one
edge per field recognised by models.IsReference.  No edge of the node is
removed. -/
def UpdateFromEntity (g : IndexedGraph) (entity : Str) (id : Int) (data : Doc) :
    IndexedGraph :=
  let nodeID := nodeIDStr entity id
  let g1 := AddNode g nodeID (strFieldD data (chars "type"))
  data.foldl (fun acc kv =>
    match IsReference kv.2 with
    | some ref => AddEdge acc nodeID (nodeIDStr ref.entity ref.id) kv.1
    | none => acc) g1

/-- One row of the SQLite graph_edges table. -/
structure EdgeRow where
  sourceEntity : Str
  sourceID : Int
  targetEntity : Str
  targetID : Int
  relationship : Str
deriving DecidableEq

/-- The reference extraction inlined in SQLiteStore.syncGraphEdges: the id
key is skipped, the value must be a map with string type REF, a non-empty
string entity and a numeric id whose truncation is non-zero. -/
def extractRefRows (sourceEntity : Str) (sourceID : Int) (data : Doc) :
    List EdgeRow :=
  data.filterMap (fun kv =>
    if kv.1 = chars "id" then none
    else
      match kv.2 with
      | .obj m =>
          match lookupA m (chars "type") with
          | some (.str refType) =>
              if refType = chars "REF" then
                match strFieldD m (chars "entity") with
                | [] => none
                | e :: es =>
                    match lookupA m (chars "id") with
                    | some (.num q) =>
                        if truncRat q = 0 then none
                        else some ⟨sourceEntity, sourceID, e :: es, truncRat q, kv.1⟩
                    | _ => none
              else none
          | _ => none
      | _ => none)

/-- Translation of SQLiteStore.syncGraphEdges on the graph_edges table: all
rows whose source matches are deleted, then the rows extracted from the
document are inserted. -/
def syncGraphEdges (edges : List EdgeRow) (sourceEntity : Str) (sourceID : Int)
    (data : Doc) : List EdgeRow :=
  (edges.filter (fun r =>
    ¬ (r.sourceEntity = sourceEntity ∧ r.sourceID = sourceID))) ++
  extractRefRows sourceEntity sourceID data

/-- Error outcomes of IndexedGraph.FindPath. -/
inductive PathErr where
  | nodeMissing (n : Str) : PathErr
  | noPath : PathErr
deriving DecidableEq

/-- All neighbour identifiers appearing anywhere in the adjacency map. -/
def allTargets (g : IndexedGraph) : List Str :=
  (g.adjacency.map (fun p => p.2.map Prod.fst)).flatten

/-- Count of nodes of allTargets not yet marked visited, the potential used
to show the search loop terminates. -/
def unvisitedCount (g : IndexedGraph) (visited : List Str) : Nat :=
  ((allTargets g).filter (fun t => !(decide (t ∈ visited)))).length

/-- The neighbour loop of FindPath: unvisited neighbours are marked visited
and their extended paths are appended to the queue. -/
def expand (path : List Str) : NbrMap → List (List Str) → List Str →
    List (List Str) × List Str
  | [], queue, visited => (queue, visited)
  | (n, _) :: rest, queue, visited =>
      if n ∈ visited then expand path rest queue visited
      else expand path rest (queue ++ [path ++ [n]]) (n :: visited)

theorem length_filter_imp {α : Type} (p q : α → Bool)
    (h : ∀ t, p t = true → q t = true) (l : List α) :
    (l.filter p).length ≤ (l.filter q).length := by
  induction l with
  | nil => simp
  | cons x xs ih =>
      by_cases hp : p x
      · simp [List.filter_cons, hp, h x hp]
        omega
      · simp only [List.filter_cons]
        rw [if_neg (by simp [hp])]
        by_cases hq : q x
        · simp [hq]
          omega
        · simp [hq, ih]

theorem unvisited_drop (U : List Str) (n : Str) (visited : List Str)
    (hn : n ∈ U) (hnv : n ∉ visited) :
    (U.filter (fun t => !(decide (t ∈ n :: visited)))).length + 1 ≤
      (U.filter (fun t => !(decide (t ∈ visited)))).length := by
  induction U with
  | nil => simp at hn
  | cons u us ih =>
      simp only [List.filter_cons]
      by_cases hun : u = n
      · subst hun
        rw [if_neg (by simp), if_pos (by simp [hnv])]
        have hmono := length_filter_imp (fun t => !(decide (t ∈ u :: visited)))
          (fun t => !(decide (t ∈ visited)))
          (fun t ht => by
            simp only [Bool.not_eq_true', decide_eq_false_iff_not,
              List.mem_cons] at ht ⊢
            exact fun hh => ht (Or.inr hh)) us
        simp only [List.length_cons]
        omega
      · have hnus : n ∈ us := by
          rcases List.mem_cons.mp hn with h | h
          · exact absurd h.symm hun
          · exact h
        by_cases hv : u ∈ visited
        · rw [if_neg (by simp [hv]), if_neg (by simp [hv])]
          exact ih hnus
        · rw [if_pos (by simp [hv, hun]), if_pos (by simp [hv])]
          simp only [List.length_cons]
          have := ih hnus
          omega

theorem expand_measure (g : IndexedGraph) (path : List Str) :
    ∀ (nbrs : NbrMap) (queue : List (List Str)) (visited : List Str),
    (∀ q ∈ nbrs, q.1 ∈ allTargets g) →
    (expand path nbrs queue visited).1.length +
        2 * unvisitedCount g (expand path nbrs queue visited).2 ≤
      queue.length + 2 * unvisitedCount g visited
  | [], queue, visited, _ => le_refl _
  | (n, r) :: rest, queue, visited, hn => by
      by_cases hv : n ∈ visited
      · simp only [expand, if_pos hv]
        exact expand_measure g path rest queue visited
          (fun q hq => hn q (List.mem_cons_of_mem _ hq))
      · simp only [expand, if_neg hv]
        have h1 := expand_measure g path rest (queue ++ [path ++ [n]])
          (n :: visited) (fun q hq => hn q (List.mem_cons_of_mem _ hq))
        have h2 : unvisitedCount g (n :: visited) + 1 ≤
            unvisitedCount g visited :=
          unvisited_drop (allTargets g) n visited
            (hn (n, r) (List.mem_cons_self _ _)) hv
        simp only [List.length_append, List.length_cons, List.length_nil] at h1
        omega

theorem lookupA_mem {α β : Type} [DecidableEq α] :
    ∀ (l : List (α × β)) (a : α) (b : β),
    lookupA l a = some b → (a, b) ∈ l
  | [], _, _, h => by simp [lookupA] at h
  | (k, v) :: rest, a, b, h => by
      by_cases hk : k = a
      · subst hk
        have h2 : some v = some b := by simpa [lookupA] using h
        cases h2
        exact List.mem_cons_self _ _
      · have h2 : lookupA rest a = some b := by simpa [lookupA, hk] using h
        exact List.mem_cons_of_mem _ (lookupA_mem rest a b h2)

theorem nbrs_in_targets (g : IndexedGraph) (c : Str) :
    ∀ q ∈ ((lookupA g.adjacency c).getD []), q.1 ∈ allTargets g := by
  intro q hq
  cases hl : lookupA g.adjacency c with
  | none => rw [hl] at hq; simp at hq
  | some inner =>
      rw [hl] at hq
      simp only [Option.getD_some] at hq
      have hmem := lookupA_mem g.adjacency c inner hl
      simp only [allTargets, List.mem_flatten]
      refine ⟨inner.map Prod.fst, ?_, ?_⟩
      · exact List.mem_map.mpr ⟨(c, inner), hmem, rfl⟩
      · exact List.mem_map.mpr ⟨q, hq, rfl⟩

/-- The breadth-first loop of IndexedGraph.FindPath: dequeue a path, prune
it when it already has more nodes than maxDepth, return it when it ends at
the target, otherwise enqueue the unvisited neighbours of its last node. -/
def bfsLoop (g : IndexedGraph) (tgt : Str) (maxDepth : Int) :
    List (List Str) → List Str → Option (List Str)
  | [], _ => none
  | path :: rest, visited =>
      if (path.length : Int) > maxDepth then bfsLoop g tgt maxDepth rest visited
      else if path.getLast? = some tgt then some path
      else
        bfsLoop g tgt maxDepth
          (expand path ((lookupA g.adjacency (path.getLast?.getD [])).getD [])
            rest visited).1
          (expand path ((lookupA g.adjacency (path.getLast?.getD [])).getD [])
            rest visited).2
termination_by queue visited => queue.length + 2 * unvisitedCount g visited
decreasing_by
  · simp only [List.length_cons]
    omega
  · have h := expand_measure g path
      ((lookupA g.adjacency (path.getLast?.getD [])).getD []) rest visited
      (nbrs_in_targets g (path.getLast?.getD []))
    simp only [List.length_cons]
    omega

/-- Translation of IndexedGraph.FindPath: absent endpoints produce the two
not-found errors, an exhausted queue produces the no-path error. -/
def FindPath (g : IndexedGraph) (frm tgt : Str) (maxDepth : Int) :
    Except PathErr (List Str) :=
  if ¬ memKeyA g.adjacency frm then .error (.nodeMissing frm)
  else if ¬ memKeyA g.adjacency tgt then .error (.nodeMissing tgt)
  else
    match bfsLoop g tgt maxDepth [[frm]] [frm] with
    | some p => .ok p
    | none => .error .noPath

/-- A chain check: every consecutive pair of the path is an edge recorded in
the adjacency map. -/
def chainOkB (g : IndexedGraph) : List Str → Bool
  | [] => true
  | [_] => true
  | u :: v :: rest =>
      (lookup2 g.adjacency u v).isSome && chainOkB g (v :: rest)

/-- A path witnessing reachability: it starts at frm, ends at tgt and all
its successive adjacency entries exist. -/
def validPathB (g : IndexedGraph) (frm tgt : Str) (p : List Str) : Bool :=
  decide (p.head? = some frm) && decide (p.getLast? = some tgt) && chainOkB g p

theorem bfsLoop_nil (g : IndexedGraph) (tgt : Str) (d : Int)
    (visited : List Str) : bfsLoop g tgt d [] visited = none := by
  simp [bfsLoop]

theorem bfsLoop_cons (g : IndexedGraph) (tgt : Str) (d : Int)
    (path : List Str) (rest : List (List Str)) (visited : List Str) :
    bfsLoop g tgt d (path :: rest) visited =
      if (path.length : Int) > d then bfsLoop g tgt d rest visited
      else if path.getLast? = some tgt then some path
      else bfsLoop g tgt d
        (expand path ((lookupA g.adjacency (path.getLast?.getD [])).getD [])
          rest visited).1
        (expand path ((lookupA g.adjacency (path.getLast?.getD [])).getD [])
          rest visited).2 := by
  rw [bfsLoop]

theorem head_append_left {α : Type} (p : List α) (q : List α)
    (h : ¬ p = []) : (p ++ q).head? = p.head? := by
  cases p with
  | nil => exact absurd rfl h
  | cons x xs => rfl

theorem lookupA_isSome_of_mem {α β : Type} [DecidableEq α] :
    ∀ (l : List (α × β)) (a : α) (b : β),
    (a, b) ∈ l → (lookupA l a).isSome = true
  | [], _, _, h => by simp at h
  | (k, v) :: rest, a, b, h => by
      by_cases hk : k = a
      · simp [lookupA, hk]
      · rcases List.mem_cons.mp h with heq | hmem
        · cases heq; exact absurd rfl hk
        · simpa [lookupA, hk] using lookupA_isSome_of_mem rest a b hmem

theorem chainOkB_snoc (g : IndexedGraph) :
    ∀ (p : List Str) (last n : Str),
    p.getLast? = some last → chainOkB g p = true →
    (lookup2 g.adjacency last n).isSome = true →
    chainOkB g (p ++ [n]) = true
  | [], _, _, hl, _, _ => by simp at hl
  | [u], last, n, hl, _, he => by
      have : u = last := by simpa using hl
      subst this
      simpa [chainOkB] using he
  | u :: v :: rest, last, n, hl, hc, he => by
      have hl2 : (v :: rest).getLast? = some last := by
        simpa [List.getLast?_cons_cons] using hl
      have hc2 : (lookup2 g.adjacency u v).isSome = true ∧
          chainOkB g (v :: rest) = true := by
        simpa [chainOkB] using hc
      have := chainOkB_snoc g (v :: rest) last n hl2 hc2.2 he
      simpa [chainOkB] using ⟨hc2.1, this⟩

theorem expand_mem (path : List Str) :
    ∀ (nbrs : NbrMap) (queue : List (List Str)) (visited : List Str)
      (q : List Str), q ∈ (expand path nbrs queue visited).1 →
    q ∈ queue ∨ ∃ n r, (n, r) ∈ nbrs ∧ q = path ++ [n]
  | [], queue, visited, q, h => Or.inl h
  | (n, r) :: rest, queue, visited, q, h => by
      by_cases hv : n ∈ visited
      · rw [expand, if_pos hv] at h
        rcases expand_mem path rest queue visited q h with h2 | ⟨n2, r2, hm, he⟩
        · exact Or.inl h2
        · exact Or.inr ⟨n2, r2, List.mem_cons_of_mem _ hm, he⟩
      · rw [expand, if_neg hv] at h
        rcases expand_mem path rest (queue ++ [path ++ [n]]) (n :: visited) q h with
          h2 | ⟨n2, r2, hm, he⟩
        · rcases List.mem_append.mp h2 with h3 | h3
          · exact Or.inl h3
          · refine Or.inr ⟨n, r, List.mem_cons_self _ _, ?_⟩
            simpa using h3
        · exact Or.inr ⟨n2, r2, List.mem_cons_of_mem _ hm, he⟩

theorem bfsLoop_sound (g : IndexedGraph) (tgt frm : Str) (d : Int)
    (queue : List (List Str)) (visited : List Str) :
    ∀ p, bfsLoop g tgt d queue visited = some p →
    (∀ q ∈ queue, ¬ q = [] ∧ q.head? = some frm ∧ chainOkB g q = true) →
    ¬ p = [] ∧ p.head? = some frm ∧ chainOkB g p = true ∧
      (p.length : Int) ≤ d ∧ p.getLast? = some tgt := by
  induction queue, visited using bfsLoop.induct g tgt d with
  | case1 visited =>
      intro p hp _
      rw [bfsLoop_nil] at hp
      exact Option.noConfusion hp
  | case2 path rest visited hgt ih =>
      intro p hp hinv
      rw [bfsLoop_cons, if_pos hgt] at hp
      exact ih p hp (fun q hq => hinv q (List.mem_cons_of_mem _ hq))
  | case3 path rest visited hgt htgt =>
      intro p hp hinv
      rw [bfsLoop_cons, if_neg hgt, if_pos htgt] at hp
      cases hp
      obtain ⟨hne, hhead, hchain⟩ := hinv path (List.mem_cons_self _ _)
      exact ⟨hne, hhead, hchain, not_lt.mp hgt, htgt⟩
  | case4 path rest visited hgt htgt ih =>
      intro p hp hinv
      rw [bfsLoop_cons, if_neg hgt, if_neg htgt] at hp
      refine ih p hp ?_
      intro q hq
      rcases expand_mem path _ rest visited q hq with h2 | ⟨n, r, hm, he⟩
      · exact hinv q (List.mem_cons_of_mem _ h2)
      · obtain ⟨hne, hhead, hchain⟩ := hinv path (List.mem_cons_self _ _)
        subst he
        obtain ⟨last, hlast⟩ : ∃ l, path.getLast? = some l := by
          cases path with
          | nil => exact absurd rfl hne
          | cons x xs => exact ⟨_, List.getLast?_eq_getLast _ (by simp)⟩
        refine ⟨by simp, ?_, ?_⟩
        · rw [head_append_left path [n] hne]
          exact hhead
        · refine chainOkB_snoc g path last n hlast hchain ?_
          rw [hlast] at hm
          simp only [Option.getD_some] at hm
          cases hlk : lookupA g.adjacency last with
          | none => rw [hlk] at hm; simp at hm
          | some inner =>
              rw [hlk] at hm
              simp only [Option.getD_some] at hm
              simp only [lookup2, hlk]
              exact lookupA_isSome_of_mem inner n r hm

/-- Whitespace test of strings.TrimSpace. -/
def isWS (c : Char) : Bool := c.isWhitespace

/-- Translation of strings.TrimSpace. -/
def trimStr (s : Str) : Str :=
  ((s.dropWhile isWS).reverse.dropWhile isWS).reverse

/-- The two-way split of strings.SplitN with limit two: the part before the
first separator and the remainder, or none when the separator is absent. -/
def splitFirst (sep : Char) : Str → Option (Str × Str)
  | [] => none
  | c :: cs =>
      if c = sep then some ([], cs)
      else
        match splitFirst sep cs with
        | some (a, b) => some (c :: a, b)
        | none => none

/-- One neighbour token written by IndexedGraph.Save: the neighbour id, a
colon and the relationship. -/
def tokenOf (q : Str × Str) : Str := q.1 ++ ':' :: q.2

/-- One line written by IndexedGraph.Save: the source node, a colon, and
the space-separated neighbour tokens. -/
def saveLine (p : Str × NbrMap) : Str :=
  p.1 ++ ':' :: List.intercalate [' '] (p.2.map tokenOf)

/-- Translation of IndexedGraph.Save at the level of the lines written to
the temporary file before the rename. -/
def SaveLines (g : IndexedGraph) : List Str :=
  g.adjacency.map saveLine

/-- Processing of one neighbour token by the load loop: empty and colon-free
tokens are skipped, otherwise the neighbour is registered and the mirrored
pair of edge entries is assigned. -/
def loadToken (nodeID : Str) (acc : IndexedGraph) (token : Str) :
    IndexedGraph :=
  if token = [] then acc
  else
    match splitFirst ':' token with
    | none => acc
    | some (nbr, rel) => setEdgePair (ensureNode acc nbr) nodeID nbr rel

/-- Processing of one trimmed line by IndexedGraph.Load: blank and
colon-free lines are skipped, the source node is registered, and the
remainder is split on spaces into neighbour tokens. -/
def loadBody (acc : IndexedGraph) (l : Str) : IndexedGraph :=
  if l = [] then acc
  else
    match splitFirst ':' l with
    | none => acc
    | some (nodeID, rest) =>
        if rest = [] then ensureNode acc nodeID
        else (rest.splitOn ' ').foldl (loadToken nodeID) (ensureNode acc nodeID)

/-- Processing of one line by IndexedGraph.Load: the line is trimmed and
handed to the body. -/
def loadLine (acc : IndexedGraph) (line : Str) : IndexedGraph :=
  loadBody acc (trimStr line)

/-- Translation of IndexedGraph.Load: the three maps are reset and the
graph is rebuilt from the lines of the file. -/
def LoadLines (lines : List Str) : IndexedGraph :=
  lines.foldl loadLine emptyGraph

/-- The mirror invariant of the indexed graph: an edge is recorded in the
adjacency map exactly when its mirror is recorded in the reverse map, with
the same relationship. -/
def MirrorInv (g : IndexedGraph) : Prop :=
  ∀ u v r, lookup2 g.adjacency u v = some r ↔ lookup2 g.reverse v u = some r

theorem lookupA_append_single {α β : Type} [DecidableEq α]
    (m : List (α × β)) (n : α) (b : β) (x : α) :
    lookupA (m ++ [(n, b)]) x =
      (match lookupA m x with
       | some v => some v
       | none => if n = x then some b else none) := by
  induction m with
  | nil => simp [lookupA]
  | cons kv rest ih =>
      obtain ⟨k, v⟩ := kv
      by_cases hk : k = x <;> simp [lookupA, hk, ih]

theorem lookup2_append_empty (m : List (Str × NbrMap)) (n u v : Str) :
    lookup2 (m ++ [(n, [])]) u v = lookup2 m u v := by
  simp only [lookup2, lookupA_append_single]
  cases hh : lookupA m u with
  | some inner => rfl
  | none =>
      by_cases hn : n = u <;> simp [hn, lookupA]

theorem lookup2_ensure (g : IndexedGraph) (n u v : Str) :
    lookup2 (ensureNode g n).adjacency u v = lookup2 g.adjacency u v ∧
    lookup2 (ensureNode g n).reverse u v = lookup2 g.reverse u v := by
  unfold ensureNode
  by_cases h : memKeyA g.adjacency n
  · simp [h]
  · simp [h, lookup2_append_empty]

theorem lookup2_setEdge (m : List (Str × NbrMap)) (u v r x y : Str) :
    lookup2 (setEdge m u v r) x y =
      if x = u ∧ y = v then some r else lookup2 m x y := by
  unfold setEdge lookup2
  rw [lookupA_insertA]
  by_cases hx : x = u
  · subst hx
    rw [if_pos rfl]
    show lookupA (insertA ((lookupA m x).getD []) v r) y = _
    rw [lookupA_insertA]
    by_cases hy : y = v
    · subst hy
      rw [if_pos rfl, if_pos ⟨rfl, rfl⟩]
    · rw [if_neg hy, if_neg (by rintro ⟨_, h⟩; exact hy h)]
      cases hh : lookupA m x with
      | some inner => simp [hh]
      | none => simp [hh, lookupA]
  · rw [if_neg hx, if_neg (by rintro ⟨h, _⟩; exact hx h)]

theorem mirror_ensure (g : IndexedGraph) (n : Str) (h : MirrorInv g) :
    MirrorInv (ensureNode g n) := by
  intro u v r
  rw [(lookup2_ensure g n u v).1, (lookup2_ensure g n v u).2]
  exact h u v r

theorem mirror_setEdgePair (g : IndexedGraph) (a b rel : Str)
    (h : MirrorInv g) : MirrorInv (setEdgePair g a b rel) := by
  intro u v r
  simp only [setEdgePair, lookup2_setEdge]
  by_cases hc : u = a ∧ v = b
  · obtain ⟨h1, h2⟩ := hc
    subst h1; subst h2
    simp
  · rw [if_neg hc, if_neg (by rintro ⟨h1, h2⟩; exact hc ⟨h2, h1⟩)]
    exact h u v r

theorem mirror_addNode (g : IndexedGraph) (n ty : Str) (h : MirrorInv g) :
    MirrorInv (AddNode g n ty) := by
  unfold AddNode
  by_cases hty : ty = []
  · simpa [hty] using mirror_ensure g n h
  · simp only [if_neg hty]
    exact fun u v r => (mirror_ensure g n h) u v r

theorem mirror_addEdge (g : IndexedGraph) (f t rel : Str) (h : MirrorInv g) :
    MirrorInv (AddEdge g f t rel) := by
  unfold AddEdge
  intro u v r
  exact (mirror_setEdgePair (ensureNode (ensureNode g f) t) f t rel
    (mirror_ensure _ t (mirror_ensure g f h))) u v r

theorem lookupA_map_erase (m : List (Str × NbrMap)) (n x : Str) :
    lookupA (m.map (fun p => (p.1, eraseA p.2 n))) x =
      (lookupA m x).map (fun b => eraseA b n) := by
  induction m with
  | nil => rfl
  | cons kv rest ih =>
      obtain ⟨k, v⟩ := kv
      by_cases hk : k = x <;> simp [lookupA, hk, ih]

theorem lookup2_removeNode (m : List (Str × NbrMap)) (n x y : Str) :
    lookup2 ((eraseA m n).map (fun p => (p.1, eraseA p.2 n))) x y =
      if x = n ∨ y = n then none else lookup2 m x y := by
  unfold lookup2
  rw [lookupA_map_erase, lookupA_eraseA]
  by_cases hx : x = n
  · simp [hx]
  · rw [if_neg hx]
    cases hh : lookupA m x with
    | none => simp [hh, hx]
    | some inner => simp [hh, hx, lookupA_eraseA]

theorem mirror_removeNode (g : IndexedGraph) (n : Str) (h : MirrorInv g) :
    MirrorInv (RemoveNode g n) := by
  intro u v r
  simp only [RemoveNode, lookup2_removeNode]
  by_cases hc : u = n ∨ v = n
  · rw [if_pos hc, if_pos (Or.symm hc)]
  · rw [if_neg hc, if_neg (fun hh => hc (Or.symm hh))]
    exact h u v r

theorem lookup2_removeEdgeSide (m : List (Str × NbrMap)) (a b x y : Str) :
    lookup2 (match lookupA m a with
             | some inner => insertA m a (eraseA inner b)
             | none => m) x y =
      if x = a ∧ y = b then none else lookup2 m x y := by
  cases hh : lookupA m a with
  | none =>
      by_cases hc : x = a ∧ y = b
      · obtain ⟨h1, h2⟩ := hc
        subst h1; subst h2
        simp [lookup2, hh]
      · simp [hc]
  | some inner =>
      unfold lookup2
      rw [lookupA_insertA]
      by_cases hx : x = a
      · subst hx
        rw [if_pos rfl]
        show lookupA (eraseA inner b) y = _
        rw [lookupA_eraseA]
        by_cases hy : y = b
        · subst hy
          rw [if_pos rfl, if_pos ⟨rfl, rfl⟩]
        · rw [if_neg hy, if_neg (by rintro ⟨_, h⟩; exact hy h), hh]
      · rw [if_neg hx, if_neg (by rintro ⟨h, _⟩; exact hx h)]

theorem mirror_removeEdge (g : IndexedGraph) (f t : Str) (h : MirrorInv g) :
    MirrorInv (RemoveEdge g f t) := by
  intro u v r
  simp only [RemoveEdge, lookup2_removeEdgeSide]
  by_cases hc : u = f ∧ v = t
  · rw [if_pos hc, if_pos ⟨hc.2, hc.1⟩]
  · rw [if_neg hc, if_neg (fun hh => hc ⟨hh.2, hh.1⟩)]
    exact h u v r

theorem mirror_foldAddEdges (nodeID : Str) :
    ∀ (d : Doc) (g : IndexedGraph), MirrorInv g →
    MirrorInv (d.foldl (fun acc kv =>
      match IsReference kv.2 with
      | some ref => AddEdge acc nodeID (nodeIDStr ref.entity ref.id) kv.1
      | none => acc) g)
  | [], _, hb => hb
  | kv :: rest, g, hb => by
      simp only [List.foldl_cons]
      cases IsReference kv.2 with
      | none => exact mirror_foldAddEdges nodeID rest g hb
      | some ref =>
          exact mirror_foldAddEdges nodeID rest _ (mirror_addEdge _ _ _ _ hb)

theorem mirror_updateFromEntity (g : IndexedGraph) (e : Str) (i : Int)
    (d : Doc) (h : MirrorInv g) : MirrorInv (UpdateFromEntity g e i d) :=
  mirror_foldAddEdges (nodeIDStr e i) d _
    (mirror_addNode g (nodeIDStr e i) (strFieldD d (chars "type")) h)

theorem mirror_loadToken (nodeID : Str) (g : IndexedGraph) (token : Str)
    (h : MirrorInv g) : MirrorInv (loadToken nodeID g token) := by
  unfold loadToken
  by_cases ht : token = []
  · simpa [ht] using h
  · simp only [if_neg ht]
    cases splitFirst ':' token with
    | none => exact h
    | some pr => exact mirror_setEdgePair _ _ _ _ (mirror_ensure _ _ h)

theorem mirror_foldTokens (nodeID : Str) :
    ∀ (tokens : List Str) (g : IndexedGraph), MirrorInv g →
    MirrorInv (tokens.foldl (loadToken nodeID) g)
  | [], _, hb => hb
  | tok :: rest, g, hb => by
      simp only [List.foldl_cons]
      exact mirror_foldTokens nodeID rest _ (mirror_loadToken nodeID g tok hb)

theorem mirror_loadLine (g : IndexedGraph) (line : Str) (h : MirrorInv g) :
    MirrorInv (loadLine g line) := by
  unfold loadLine loadBody
  by_cases hl : trimStr line = []
  · simpa [hl] using h
  · simp only [if_neg hl]
    cases splitFirst ':' (trimStr line) with
    | none => exact h
    | some pr =>
        obtain ⟨nodeID, rest⟩ := pr
        simp only
        by_cases hr : rest = []
        · simpa [hr] using mirror_ensure g nodeID h
        · simp only [if_neg hr]
          exact mirror_foldTokens nodeID _ _ (mirror_ensure g nodeID h)

theorem mirror_empty : MirrorInv emptyGraph := by
  intro u v r
  simp [emptyGraph, lookup2, lookupA]

theorem mirror_foldLines :
    ∀ (lines : List Str) (g : IndexedGraph), MirrorInv g →
    MirrorInv (lines.foldl loadLine g)
  | [], _, hb => hb
  | l :: rest, g, hb => by
      simp only [List.foldl_cons]
      exact mirror_foldLines rest _ (mirror_loadLine g l hb)

theorem mirror_loadLines (lines : List Str) : MirrorInv (LoadLines lines) :=
  mirror_foldLines lines emptyGraph mirror_empty

/-- A token is clean when it contains neither the colon separator nor any
whitespace, the condition under which the save format is unambiguous. -/
def cleanTok (s : Str) : Bool :=
  s.all (fun c => !(decide (c = ':')) && !(isWS c))

/-- Well-formedness of a graph state for the persistence round trip: unique
source keys, unique neighbour keys, clean identifiers and relationships,
every neighbour also present as a key, the reverse map keyed exactly like
the adjacency map, and the reverse map the exact mirror of the adjacency
map. -/
def graphWFB (g : IndexedGraph) : Bool :=
  decide ((g.adjacency.map Prod.fst).Nodup) &&
  g.adjacency.all (fun p =>
    cleanTok p.1 && decide ((p.2.map Prod.fst).Nodup) &&
    p.2.all (fun q =>
      cleanTok q.1 && cleanTok q.2 && memKeyA g.adjacency q.1)) &&
  g.reverse.all (fun p => memKeyA g.adjacency p.1) &&
  g.adjacency.all (fun p => memKeyA g.reverse p.1) &&
  g.adjacency.all (fun p => p.2.all (fun q =>
    lookup2 g.reverse q.1 p.1 = some q.2)) &&
  g.reverse.all (fun p => p.2.all (fun q =>
    lookup2 g.adjacency q.1 p.1 = some q.2))

theorem colon_not_mem_of_clean (s : Str) (h : cleanTok s = true) : ':' ∉ s := by
  intro hm
  have := List.all_eq_true.mp h ':' hm
  simp at this

theorem space_not_mem_of_clean (s : Str) (h : cleanTok s = true) : ' ' ∉ s := by
  intro hm
  have := List.all_eq_true.mp h ' ' hm
  simp [isWS] at this

theorem clean_not_ws (s : Str) (h : cleanTok s = true) :
    ∀ c ∈ s, isWS c = false := by
  intro c hm
  have := List.all_eq_true.mp h c hm
  simp at this
  exact this.2

theorem dropWhile_eq_self_of_head (l : Str)
    (h : ∀ c, l.head? = some c → isWS c = false) :
    l.dropWhile isWS = l := by
  cases l with
  | nil => rfl
  | cons c cs =>
      have hc := h c rfl
      simp [List.dropWhile_cons, hc]

theorem trimStr_eq_self (l : Str)
    (h1 : ∀ c, l.head? = some c → isWS c = false)
    (h2 : ∀ c, l.getLast? = some c → isWS c = false) :
    trimStr l = l := by
  unfold trimStr
  rw [dropWhile_eq_self_of_head l h1]
  rw [dropWhile_eq_self_of_head l.reverse
    (fun c hc => h2 c (by rwa [List.head?_reverse] at hc))]
  exact List.reverse_reverse l

theorem splitFirst_exact (sep : Char) : ∀ (xs ys : Str), sep ∉ xs →
    splitFirst sep (xs ++ sep :: ys) = some (xs, ys)
  | [], ys, _ => by simp [splitFirst]
  | c :: cs, ys, h => by
      have hc : ¬ c = sep := fun hh => h (hh ▸ List.mem_cons_self c cs)
      have h2 : sep ∉ cs := fun hh => h (List.mem_cons_of_mem c hh)
      simp [splitFirst, hc, splitFirst_exact sep cs ys h2]

theorem intercalate_one (t : Str) : List.intercalate [' '] [t] = t := by
  simp [List.intercalate]

theorem intercalate_cons_cons (a b : Str) (l : List Str) :
    List.intercalate [' '] (a :: b :: l) =
      a ++ ' ' :: List.intercalate [' '] (b :: l) := by
  simp [List.intercalate, List.intersperse]

theorem intercalate_ne_nil : ∀ (tokens : List Str), tokens ≠ [] →
    (∀ t ∈ tokens, ¬ t = []) → ¬ List.intercalate [' '] tokens = []
  | [], h, _ => absurd rfl h
  | [t], _, hall => by
      rw [intercalate_one]
      exact hall t (by simp)
  | t :: t2 :: ts, _, hall => by
      rw [intercalate_cons_cons]
      intro hnil
      have ht : ¬ t = [] := hall t (by simp)
      cases t with
      | nil => exact ht rfl
      | cons c cs => exact List.noConfusion hnil

theorem intercalate_getLast_not_ws : ∀ (tokens : List Str), tokens ≠ [] →
    (∀ t ∈ tokens, ¬ t = [] ∧ (∀ c, t.getLast? = some c → isWS c = false)) →
    ∀ c, (List.intercalate [' '] tokens).getLast? = some c → isWS c = false
  | [], h, _ => absurd rfl h
  | [t], _, hall => by
      intro c hc
      rw [intercalate_one] at hc
      exact (hall t (by simp)).2 c hc
  | t :: t2 :: ts, _, hall => by
      intro c hc
      have hrec := intercalate_getLast_not_ws (t2 :: ts) (by simp)
        (fun x hx => hall x (List.mem_cons_of_mem _ hx))
      have hne : ¬ List.intercalate [' '] (t2 :: ts) = [] :=
        intercalate_ne_nil (t2 :: ts) (by simp)
          (fun x hx => (hall x (List.mem_cons_of_mem _ hx)).1)
      rw [intercalate_cons_cons, List.getLast?_append_of_ne_nil _
        (by simp)] at hc
      rw [show (' ' :: List.intercalate [' '] (t2 :: ts)) =
            [' '] ++ List.intercalate [' '] (t2 :: ts) from rfl,
          List.getLast?_append_of_ne_nil _ hne] at hc
      exact hrec c hc

theorem token_ne_nil (q : Str × Str) : ¬ tokenOf q = [] := by
  unfold tokenOf
  cases q.1 with
  | nil => simp
  | cons c cs => simp

theorem token_getLast_not_ws (q : Str × Str) (h2 : cleanTok q.2 = true) :
    ∀ c, (tokenOf q).getLast? = some c → isWS c = false := by
  intro c hc
  unfold tokenOf at hc
  rw [List.getLast?_append_of_ne_nil _ (by simp)] at hc
  cases hq : q.2 with
  | nil =>
      rw [hq] at hc
      simp at hc
      subst hc
      decide
  | cons d ds =>
      rw [hq, List.getLast?_cons_cons] at hc
      have hmem : c ∈ d :: ds := List.mem_of_mem_getLast? hc
      exact clean_not_ws q.2 h2 c (hq ▸ hmem)

theorem token_space_free (q : Str × Str) (h1 : cleanTok q.1 = true)
    (h2 : cleanTok q.2 = true) : ' ' ∉ tokenOf q := by
  unfold tokenOf
  intro hm
  rcases List.mem_append.mp hm with h | h
  · exact space_not_mem_of_clean q.1 h1 h
  · rcases List.mem_cons.mp h with h | h
    · exact absurd h (by decide)
    · exact space_not_mem_of_clean q.2 h2 h

/-- The edge-insertion step performed for each parsed neighbour token. -/
def edgeFoldStep (key : Str) (acc : IndexedGraph) (q : Str × Str) :
    IndexedGraph :=
  setEdgePair (ensureNode acc q.1) key q.1 q.2

theorem foldl_congr_mem {α β : Type} (l : List α) (f g : β → α → β) (b : β)
    (h : ∀ a ∈ l, ∀ x, f x a = g x a) : l.foldl f b = l.foldl g b := by
  induction l generalizing b with
  | nil => rfl
  | cons a rest ih =>
      simp only [List.foldl_cons]
      rw [h a (List.mem_cons_self _ _)]
      exact ih _ (fun x hx y => h x (List.mem_cons_of_mem _ hx) y)

theorem loadToken_tokenOf (key : Str) (acc : IndexedGraph) (q : Str × Str)
    (h1 : cleanTok q.1 = true) :
    loadToken key acc (tokenOf q) = edgeFoldStep key acc q := by
  unfold loadToken
  rw [if_neg (token_ne_nil q)]
  rw [show tokenOf q = q.1 ++ ':' :: q.2 from rfl,
    splitFirst_exact ':' q.1 q.2 (colon_not_mem_of_clean q.1 h1)]
  rfl

theorem line_head_not_ws (key rest : Str) (hk : cleanTok key = true) :
    ∀ c, (key ++ ':' :: rest).head? = some c → isWS c = false := by
  cases key with
  | nil =>
      intro c hc
      simp only [List.nil_append, List.head?_cons, Option.some.injEq] at hc
      subst hc
      decide
  | cons k ks =>
      intro c hc
      simp only [List.cons_append, List.head?_cons, Option.some.injEq] at hc
      subst hc
      exact clean_not_ws (k :: ks) hk k (by simp)

theorem line_last_not_ws (key : Str) (nbrs : NbrMap)
    (hnb : ∀ q ∈ nbrs, cleanTok q.1 = true ∧ cleanTok q.2 = true) :
    ∀ c, (key ++ ':' :: List.intercalate [' '] (nbrs.map tokenOf)).getLast? =
      some c → isWS c = false := by
  intro c hc
  rw [List.getLast?_append_of_ne_nil _ (by simp)] at hc
  cases hn : nbrs with
  | nil =>
      rw [hn] at hc
      simp only [List.map_nil] at hc
      rw [show List.intercalate [' '] ([] : List Str) = [] from rfl] at hc
      simp only [List.getLast?_singleton, Option.some.injEq] at hc
      subst hc
      decide
  | cons q qs =>
      rw [hn] at hc
      have hne : ¬ List.intercalate [' '] ((q :: qs).map tokenOf) = [] :=
        intercalate_ne_nil _ (by simp) (fun t ht => by
          rcases List.mem_map.mp ht with ⟨q2, _, rfl⟩
          exact token_ne_nil q2)
      rw [show (':' :: List.intercalate [' '] ((q :: qs).map tokenOf)) =
            [':'] ++ List.intercalate [' '] ((q :: qs).map tokenOf) from rfl,
          List.getLast?_append_of_ne_nil _ hne] at hc
      refine intercalate_getLast_not_ws _ (by simp) ?_ c hc
      intro t ht
      rcases List.mem_map.mp ht with ⟨q2, hq2, rfl⟩
      exact ⟨token_ne_nil q2, token_getLast_not_ws q2 (hnb q2 (hn ▸ hq2)).2⟩

theorem loadLine_saveLine (st : IndexedGraph) (key : Str) (nbrs : NbrMap)
    (hkey : cleanTok key = true)
    (hnb : ∀ q ∈ nbrs, cleanTok q.1 = true ∧ cleanTok q.2 = true) :
    loadLine st (saveLine (key, nbrs)) =
      nbrs.foldl (edgeFoldStep key) (ensureNode st key) := by
  unfold loadLine saveLine
  rw [trimStr_eq_self _ (line_head_not_ws key _ hkey) (line_last_not_ws key nbrs hnb)]
  unfold loadBody
  rw [if_neg (by cases key <;> simp)]
  rw [splitFirst_exact ':' key _ (colon_not_mem_of_clean key hkey)]
  show (if List.intercalate [' '] (nbrs.map tokenOf) = [] then ensureNode st key
        else ((List.intercalate [' '] (nbrs.map tokenOf)).splitOn ' ').foldl
          (loadToken key) (ensureNode st key)) = _
  cases hn : nbrs with
  | nil =>
      rw [if_pos (by simp; rfl)]
      rfl
  | cons q qs =>
      have hmapne : (q :: qs).map tokenOf ≠ [] := by simp
      have hclean : ∀ t ∈ (q :: qs).map tokenOf, ' ' ∉ t := by
        intro t ht
        rcases List.mem_map.mp ht with ⟨q2, hq2, rfl⟩
        exact token_space_free q2 (hnb q2 (hn ▸ hq2)).1 (hnb q2 (hn ▸ hq2)).2
      rw [if_neg (intercalate_ne_nil _ hmapne (fun t ht => by
        rcases List.mem_map.mp ht with ⟨q2, _, rfl⟩
        exact token_ne_nil q2))]
      rw [List.splitOn_intercalate ((q :: qs).map tokenOf) ' ' hclean hmapne]
      rw [List.foldl_map]
      exact foldl_congr_mem _ _ _ _ (fun a ha x =>
        loadToken_tokenOf key x a (hnb a (hn ▸ ha)).1)

theorem memKeyA_insertA_bool {α β : Type} [DecidableEq α]
    (m : List (α × β)) (a : α) (b : β) (x : α) :
    memKeyA (insertA m a b) x = (decide (x = a) || memKeyA m x) := by
  unfold memKeyA
  rw [lookupA_insertA]
  by_cases hx : x = a <;> simp [hx]

theorem memKey_ensure_adj (g : IndexedGraph) (n x : Str) :
    memKeyA (ensureNode g n).adjacency x =
      (memKeyA g.adjacency x || decide (x = n)) := by
  unfold ensureNode
  by_cases h : memKeyA g.adjacency n
  · rw [if_pos h]
    by_cases hx : x = n
    · subst hx; simp [h]
    · simp [hx]
  · rw [if_neg h]
    show memKeyA (g.adjacency ++ [(n, [])]) x = _
    unfold memKeyA
    rw [lookupA_append_single]
    cases hl : lookupA g.adjacency x with
    | some v => simp [memKeyA, hl]
    | none =>
        by_cases hx : n = x
        · simp [memKeyA, hl, hx]
        · have hx2 : ¬ x = n := fun hh => hx hh.symm
          simp [memKeyA, hl, hx, hx2]

theorem memKey_ensure_rev (g : IndexedGraph) (n x : Str)
    (hdom : ∀ y, memKeyA g.adjacency y = memKeyA g.reverse y) :
    memKeyA (ensureNode g n).reverse x =
      (memKeyA g.reverse x || decide (x = n)) := by
  unfold ensureNode
  by_cases h : memKeyA g.adjacency n
  · rw [if_pos h]
    by_cases hx : x = n
    · subst hx
      have : memKeyA g.reverse x = true := (hdom x).symm.trans h
      simp [this]
    · simp [hx]
  · rw [if_neg h]
    show memKeyA (g.reverse ++ [(n, [])]) x = _
    unfold memKeyA
    rw [lookupA_append_single]
    cases hl : lookupA g.reverse x with
    | some v => simp [memKeyA, hl]
    | none =>
        by_cases hx : n = x
        · simp [memKeyA, hl, hx]
        · have hx2 : ¬ x = n := fun hh => hx hh.symm
          simp [memKeyA, hl, hx, hx2]

theorem edgeFoldStep_adj_key (st : IndexedGraph) (key n r y : Str) :
    lookup2 (edgeFoldStep key st (n, r)).adjacency key y =
      if y = n then some r else lookup2 st.adjacency key y := by
  show lookup2 (setEdge (ensureNode st n).adjacency key n r) key y = _
  rw [lookup2_setEdge]
  by_cases hy : y = n
  · simp [hy]
  · rw [if_neg (by rintro ⟨_, h⟩; exact hy h), if_neg hy]
    exact (lookup2_ensure st n key y).1

theorem edgeFoldStep_adj_other (st : IndexedGraph) (key n r x y : Str)
    (hx : ¬ x = key) :
    lookup2 (edgeFoldStep key st (n, r)).adjacency x y =
      lookup2 st.adjacency x y := by
  show lookup2 (setEdge (ensureNode st n).adjacency key n r) x y = _
  rw [lookup2_setEdge, if_neg (by rintro ⟨h, _⟩; exact hx h)]
  exact (lookup2_ensure st n x y).1

theorem edgeFoldStep_rev_key (st : IndexedGraph) (key n r v : Str) :
    lookup2 (edgeFoldStep key st (n, r)).reverse v key =
      if v = n then some r else lookup2 st.reverse v key := by
  show lookup2 (setEdge (ensureNode st n).reverse n key r) v key = _
  rw [lookup2_setEdge]
  by_cases hv : v = n
  · simp [hv]
  · rw [if_neg (by rintro ⟨h, _⟩; exact hv h), if_neg hv]
    exact (lookup2_ensure st n v key).2

theorem edgeFoldStep_rev_other (st : IndexedGraph) (key n r v u : Str)
    (hu : ¬ u = key) :
    lookup2 (edgeFoldStep key st (n, r)).reverse v u =
      lookup2 st.reverse v u := by
  show lookup2 (setEdge (ensureNode st n).reverse n key r) v u = _
  rw [lookup2_setEdge, if_neg (by rintro ⟨_, h⟩; exact hu h)]
  exact (lookup2_ensure st n v u).2

theorem edgeFoldStep_memKey_adj (st : IndexedGraph) (key n r x : Str)
    (hkey : memKeyA st.adjacency key = true) :
    memKeyA (edgeFoldStep key st (n, r)).adjacency x =
      (memKeyA st.adjacency x || decide (x = n)) := by
  show memKeyA (setEdge (ensureNode st n).adjacency key n r) x = _
  unfold setEdge
  rw [memKeyA_insertA_bool, memKey_ensure_adj]
  by_cases hx : x = key
  · subst hx; simp [hkey]
  · simp [hx]

theorem edgeFoldStep_memKey_rev (st : IndexedGraph) (key n r x : Str)
    (hdom : ∀ y, memKeyA st.adjacency y = memKeyA st.reverse y) :
    memKeyA (edgeFoldStep key st (n, r)).reverse x =
      (memKeyA st.reverse x || decide (x = n)) := by
  show memKeyA (setEdge (ensureNode st n).reverse n key r) x = _
  unfold setEdge
  rw [memKeyA_insertA_bool, memKey_ensure_rev _ _ _ hdom]
  by_cases hx : x = n <;> simp [hx]

theorem edgeFoldStep_dom (st : IndexedGraph) (key n r : Str)
    (hdom : ∀ y, memKeyA st.adjacency y = memKeyA st.reverse y)
    (hkey : memKeyA st.adjacency key = true) :
    ∀ x, memKeyA (edgeFoldStep key st (n, r)).adjacency x =
      memKeyA (edgeFoldStep key st (n, r)).reverse x := by
  intro x
  rw [edgeFoldStep_memKey_adj st key n r x hkey,
    edgeFoldStep_memKey_rev st key n r x hdom, hdom x]

theorem edgeFoldStep_key_present (st : IndexedGraph) (key n r : Str)
    (hkey : memKeyA st.adjacency key = true) :
    memKeyA (edgeFoldStep key st (n, r)).adjacency key = true := by
  rw [edgeFoldStep_memKey_adj st key n r key hkey, hkey]
  rfl

theorem memKeyA_cons_bool {α β : Type} [DecidableEq α]
    (k : α) (v : β) (rest : List (α × β)) (x : α) :
    memKeyA ((k, v) :: rest) x = (decide (x = k) || memKeyA rest x) := by
  unfold memKeyA
  show (if k = x then some v else lookupA rest x).isSome = _
  by_cases hx : k = x
  · subst hx; simp
  · have hx2 : ¬ x = k := fun hh => hx hh.symm
    simp [hx, hx2]

theorem edgeFold_char (key : Str) : ∀ (nbrs : NbrMap) (st : IndexedGraph),
    (nbrs.map Prod.fst).Nodup →
    (∀ y, memKeyA st.adjacency y = memKeyA st.reverse y) →
    memKeyA st.adjacency key = true →
    ((∀ y, memKeyA (nbrs.foldl (edgeFoldStep key) st).adjacency y =
        memKeyA (nbrs.foldl (edgeFoldStep key) st).reverse y) ∧
     (∀ x, memKeyA (nbrs.foldl (edgeFoldStep key) st).adjacency x =
        (memKeyA st.adjacency x || memKeyA nbrs x)) ∧
     (∀ x, memKeyA (nbrs.foldl (edgeFoldStep key) st).reverse x =
        (memKeyA st.reverse x || memKeyA nbrs x)) ∧
     (∀ y, lookup2 (nbrs.foldl (edgeFoldStep key) st).adjacency key y =
        (match lookupA nbrs y with
         | some r => some r
         | none => lookup2 st.adjacency key y)) ∧
     (∀ x y, ¬ x = key →
        lookup2 (nbrs.foldl (edgeFoldStep key) st).adjacency x y =
          lookup2 st.adjacency x y) ∧
     (∀ v, lookup2 (nbrs.foldl (edgeFoldStep key) st).reverse v key =
        (match lookupA nbrs v with
         | some r => some r
         | none => lookup2 st.reverse v key)) ∧
     (∀ v u, ¬ u = key →
        lookup2 (nbrs.foldl (edgeFoldStep key) st).reverse v u =
          lookup2 st.reverse v u))
  | [], st, _, hdom, hkey => by
      refine ⟨hdom, ?_, ?_, ?_, ?_, ?_, ?_⟩ <;> intros <;>
        simp [memKeyA, lookupA]
  | (n, r) :: rest, st, hnd, hdom, hkey => by
      have hnd2 : (rest.map Prod.fst).Nodup ∧ n ∉ rest.map Prod.fst := by
        rw [List.map_cons, List.nodup_cons] at hnd
        exact ⟨hnd.2, hnd.1⟩
      have hrest_none : lookupA rest n = none :=
        lookupA_eq_none_of_not_mem rest n hnd2.2
      have hdom2 := edgeFoldStep_dom st key n r hdom hkey
      have hkey2 := edgeFoldStep_key_present st key n r hkey
      obtain ⟨ih1, ih2, ih3, ih4, ih5, ih6, ih7⟩ :=
        edgeFold_char key rest (edgeFoldStep key st (n, r)) hnd2.1 hdom2 hkey2
      simp only [List.foldl_cons]
      refine ⟨ih1, ?_, ?_, ?_, ?_, ?_, ?_⟩
      · intro x
        rw [ih2 x, edgeFoldStep_memKey_adj st key n r x hkey,
          memKeyA_cons_bool]
        by_cases hx : x = n
        · subst hx; simp
        · have hx2 : ¬ n = x := fun hh => hx hh.symm
          simp [hx, hx2, Bool.or_assoc, Bool.or_comm]
      · intro x
        rw [ih3 x, edgeFoldStep_memKey_rev st key n r x hdom,
          memKeyA_cons_bool]
        by_cases hx : x = n
        · subst hx; simp
        · have hx2 : ¬ n = x := fun hh => hx hh.symm
          simp [hx, hx2, Bool.or_assoc, Bool.or_comm]
      · intro y
        rw [ih4 y]
        by_cases hy : n = y
        · subst hy
          rw [hrest_none]
          show lookup2 (edgeFoldStep key st (n, r)).adjacency key n = _
          rw [edgeFoldStep_adj_key, if_pos rfl]
          simp [lookupA]
        · have hy2 : ¬ y = n := fun hh => hy hh.symm
          rw [show lookupA ((n, r) :: rest) y = lookupA rest y from by
            simp [lookupA, hy]]
          cases hl : lookupA rest y with
          | some r2 => rfl
          | none =>
              show lookup2 (edgeFoldStep key st (n, r)).adjacency key y =
                lookup2 st.adjacency key y
              rw [edgeFoldStep_adj_key, if_neg hy2]
      · intro x y hx
        rw [ih5 x y hx, edgeFoldStep_adj_other st key n r x y hx]
      · intro v
        rw [ih6 v]
        by_cases hv : n = v
        · subst hv
          rw [hrest_none]
          show lookup2 (edgeFoldStep key st (n, r)).reverse n key = _
          rw [edgeFoldStep_rev_key, if_pos rfl]
          simp [lookupA]
        · have hv2 : ¬ v = n := fun hh => hv hh.symm
          rw [show lookupA ((n, r) :: rest) v = lookupA rest v from by
            simp [lookupA, hv]]
          cases hl : lookupA rest v with
          | some r2 => rfl
          | none =>
              show lookup2 (edgeFoldStep key st (n, r)).reverse v key =
                lookup2 st.reverse v key
              rw [edgeFoldStep_rev_key, if_neg hv2]
      · intro v u hu
        rw [ih7 v u hu, edgeFoldStep_rev_other st key n r v u hu]

/-- One full save line processed by the load loop, phrased on the structured
adjacency entry it was printed from: the source node is registered and each
neighbour entry is folded in. -/
def lineStep (acc : IndexedGraph) (p : Str × NbrMap) : IndexedGraph :=
  p.2.foldl (edgeFoldStep p.1) (ensureNode acc p.1)

/-- A node occurs in a list of adjacency entries either as a source key or
as a neighbour target. -/
def keysOrTargets (entries : List (Str × NbrMap)) (x : Str) : Bool :=
  entries.any (fun p => decide (x = p.1) || memKeyA p.2 x)

theorem memKeyA_true_iff {α β : Type} [DecidableEq α]
    (m : List (α × β)) (x : α) :
    memKeyA m x = true ↔ ∃ b, (x, b) ∈ m := by
  constructor
  · intro h
    unfold memKeyA at h
    cases hl : lookupA m x with
    | none => rw [hl] at h; simp at h
    | some b => exact ⟨b, lookupA_mem m x b hl⟩
  · rintro ⟨b, hb⟩
    unfold memKeyA
    exact lookupA_isSome_of_mem m x b hb

theorem lineStep_char (st : IndexedGraph) (key : Str) (nbrs : NbrMap)
    (hnd : (nbrs.map Prod.fst).Nodup)
    (hdom : ∀ y, memKeyA st.adjacency y = memKeyA st.reverse y) :
    ((∀ y, memKeyA (lineStep st (key, nbrs)).adjacency y =
        memKeyA (lineStep st (key, nbrs)).reverse y) ∧
     (∀ x, memKeyA (lineStep st (key, nbrs)).adjacency x =
        (memKeyA st.adjacency x || decide (x = key) || memKeyA nbrs x)) ∧
     (∀ y, lookup2 (lineStep st (key, nbrs)).adjacency key y =
        (match lookupA nbrs y with
         | some r => some r
         | none => lookup2 st.adjacency key y)) ∧
     (∀ x y, ¬ x = key →
        lookup2 (lineStep st (key, nbrs)).adjacency x y =
          lookup2 st.adjacency x y) ∧
     (∀ v, lookup2 (lineStep st (key, nbrs)).reverse v key =
        (match lookupA nbrs v with
         | some r => some r
         | none => lookup2 st.reverse v key)) ∧
     (∀ v u, ¬ u = key →
        lookup2 (lineStep st (key, nbrs)).reverse v u =
          lookup2 st.reverse v u)) := by
  have hdom0 : ∀ y, memKeyA (ensureNode st key).adjacency y =
      memKeyA (ensureNode st key).reverse y := by
    intro y
    rw [memKey_ensure_adj, memKey_ensure_rev _ _ _ hdom, hdom y]
  have hkey0 : memKeyA (ensureNode st key).adjacency key = true := by
    rw [memKey_ensure_adj]
    simp
  obtain ⟨ih1, ih2, ih3, ih4, ih5, ih6, ih7⟩ :=
    edgeFold_char key nbrs (ensureNode st key) hnd hdom0 hkey0
  dsimp only [lineStep]
  refine ⟨ih1, ?_, ?_, ?_, ?_, ?_⟩
  · intro x
    rw [ih2 x, memKey_ensure_adj]
  · intro y
    rw [ih4 y]
    cases hl : lookupA nbrs y with
    | some r => rfl
    | none =>
        show lookup2 (ensureNode st key).adjacency key y =
          lookup2 st.adjacency key y
        exact (lookup2_ensure st key key y).1
  · intro x y hx
    rw [ih5 x y hx]
    exact (lookup2_ensure st key x y).1
  · intro v
    rw [ih6 v]
    cases hl : lookupA nbrs v with
    | some r => rfl
    | none =>
        show lookup2 (ensureNode st key).reverse v key =
          lookup2 st.reverse v key
        exact (lookup2_ensure st key v key).2
  · intro v u hu
    rw [ih7 v u hu]
    exact (lookup2_ensure st key v u).2

theorem linesFold_char : ∀ (entries : List (Str × NbrMap)) (st : IndexedGraph),
    (entries.map Prod.fst).Nodup →
    (∀ p ∈ entries, (p.2.map Prod.fst).Nodup) →
    (∀ y, memKeyA st.adjacency y = memKeyA st.reverse y) →
    (∀ p ∈ entries, ∀ v, lookup2 st.adjacency p.1 v = none ∧
        lookup2 st.reverse v p.1 = none) →
    ((∀ y, memKeyA (entries.foldl lineStep st).adjacency y =
        memKeyA (entries.foldl lineStep st).reverse y) ∧
     (∀ x, memKeyA (entries.foldl lineStep st).adjacency x =
        (memKeyA st.adjacency x || keysOrTargets entries x)) ∧
     (∀ u v, lookup2 (entries.foldl lineStep st).adjacency u v =
        (match lookupA entries u with
         | some nbrs => lookupA nbrs v
         | none => lookup2 st.adjacency u v)) ∧
     (∀ v u, lookup2 (entries.foldl lineStep st).reverse v u =
        (match lookupA entries u with
         | some nbrs => lookupA nbrs v
         | none => lookup2 st.reverse v u)))
  | [], st, _, _, hdom, _ => by
      refine ⟨hdom, ?_, ?_, ?_⟩ <;> intros <;> simp [keysOrTargets, lookupA]
  | (key, nbrs) :: rest, st, hnd, hper, hdom, hfresh => by
      have hnd2 : (rest.map Prod.fst).Nodup ∧ key ∉ rest.map Prod.fst := by
        rw [List.map_cons, List.nodup_cons] at hnd
        exact ⟨hnd.2, hnd.1⟩
      have hkn : lookupA rest key = none :=
        lookupA_eq_none_of_not_mem rest key hnd2.2
      obtain ⟨lc1, lc2, lc3, lc4, lc5, lc6⟩ :=
        lineStep_char st key nbrs (hper (key, nbrs) (by simp)) hdom
      have hfresh2 : ∀ p ∈ rest, ∀ v,
          lookup2 (lineStep st (key, nbrs)).adjacency p.1 v = none ∧
          lookup2 (lineStep st (key, nbrs)).reverse v p.1 = none := by
        intro p hp v
        have hpk : ¬ p.1 = key := by
          intro hh
          exact hnd2.2 (hh ▸ List.mem_map_of_mem Prod.fst hp)
        exact ⟨by rw [lc4 p.1 v hpk]
                  exact (hfresh p (List.mem_cons_of_mem _ hp) v).1,
               by rw [lc6 v p.1 hpk]
                  exact (hfresh p (List.mem_cons_of_mem _ hp) v).2⟩
      obtain ⟨ih1, ih2, ih3, ih4⟩ :=
        linesFold_char rest (lineStep st (key, nbrs)) hnd2.1
          (fun p hp => hper p (List.mem_cons_of_mem _ hp)) lc1 hfresh2
      rw [List.foldl_cons]
      refine ⟨ih1, ?_, ?_, ?_⟩
      · intro x
        rw [ih2 x, lc2 x]
        simp [keysOrTargets, Bool.or_assoc]
      · intro u v
        by_cases hu : u = key
        · subst hu
          rw [ih3 u v, hkn,
            show lookupA ((u, nbrs) :: rest) u = some nbrs from by
              simp [lookupA]]
          show lookup2 (lineStep st (u, nbrs)).adjacency u v = lookupA nbrs v
          rw [lc3 v]
          have hf := (hfresh (u, nbrs) (by simp) v).1
          cases hl : lookupA nbrs v with
          | some r => rfl
          | none =>
              show lookup2 st.adjacency u v = none
              exact hf
        · have hku : ¬ key = u := fun hh => hu hh.symm
          rw [ih3 u v,
            show lookupA ((key, nbrs) :: rest) u = lookupA rest u from by
              simp [lookupA, hku]]
          cases hl : lookupA rest u with
          | some nbrs2 => rfl
          | none =>
              show lookup2 (lineStep st (key, nbrs)).adjacency u v =
                lookup2 st.adjacency u v
              exact lc4 u v hu
      · intro v u
        by_cases hu : u = key
        · subst hu
          rw [ih4 v u, hkn,
            show lookupA ((u, nbrs) :: rest) u = some nbrs from by
              simp [lookupA]]
          show lookup2 (lineStep st (u, nbrs)).reverse v u = lookupA nbrs v
          rw [lc5 v]
          have hf := (hfresh (u, nbrs) (by simp) v).2
          cases hl : lookupA nbrs v with
          | some r => rfl
          | none =>
              show lookup2 st.reverse v u = none
              exact hf
        · have hku : ¬ key = u := fun hh => hu hh.symm
          rw [ih4 v u,
            show lookupA ((key, nbrs) :: rest) u = lookupA rest u from by
              simp [lookupA, hku]]
          cases hl : lookupA rest u with
          | some nbrs2 => rfl
          | none =>
              show lookup2 (lineStep st (key, nbrs)).reverse v u =
                lookup2 st.reverse v u
              exact lc6 v u hu

theorem graphWFB_parts (g : IndexedGraph) (h : graphWFB g = true) :
    (g.adjacency.map Prod.fst).Nodup ∧
    (∀ p ∈ g.adjacency, cleanTok p.1 = true ∧ (p.2.map Prod.fst).Nodup ∧
      ∀ q ∈ p.2, cleanTok q.1 = true ∧ cleanTok q.2 = true ∧
        memKeyA g.adjacency q.1 = true) ∧
    (∀ p ∈ g.reverse, memKeyA g.adjacency p.1 = true) ∧
    (∀ p ∈ g.adjacency, memKeyA g.reverse p.1 = true) ∧
    (∀ p ∈ g.adjacency, ∀ q ∈ p.2, lookup2 g.reverse q.1 p.1 = some q.2) ∧
    (∀ p ∈ g.reverse, ∀ q ∈ p.2, lookup2 g.adjacency q.1 p.1 = some q.2) := by
  unfold graphWFB at h
  simp only [Bool.and_eq_true, decide_eq_true_eq, List.all_eq_true] at h
  obtain ⟨⟨⟨⟨⟨h1, h2⟩, h3⟩, h4⟩, h5⟩, h6⟩ := h
  refine ⟨h1, ?_, h3, h4, h5, h6⟩
  intro p hp
  obtain ⟨⟨hc, hn⟩, hq⟩ := h2 p hp
  refine ⟨hc, hn, ?_⟩
  intro q hqm
  obtain ⟨⟨hq1, hq2⟩, hq3⟩ := hq q hqm
  exact ⟨hq1, hq2, hq3⟩

theorem wf_mirror (g : IndexedGraph) (h : graphWFB g = true) :
    ∀ u v, lookup2 g.reverse v u = lookup2 g.adjacency u v := by
  obtain ⟨_, _, _, _, h5, h6⟩ := graphWFB_parts g h
  intro u v
  cases ha : lookup2 g.adjacency u v with
  | some r =>
      unfold lookup2 at ha
      cases hl : lookupA g.adjacency u with
      | none => rw [hl] at ha; exact Option.noConfusion ha
      | some inner =>
          rw [hl] at ha
          exact h5 (u, inner) (lookupA_mem g.adjacency u inner hl)
            (v, r) (lookupA_mem inner v r ha)
  | none =>
      cases hr : lookup2 g.reverse v u with
      | none => rfl
      | some r =>
          exfalso
          unfold lookup2 at hr
          cases hl : lookupA g.reverse v with
          | none => rw [hl] at hr; exact Option.noConfusion hr
          | some inner =>
              rw [hl] at hr
              have h7 := h6 (v, inner) (lookupA_mem g.reverse v inner hl)
                (u, r) (lookupA_mem inner u r hr)
              rw [ha] at h7
              exact Option.noConfusion h7

theorem wf_dom (g : IndexedGraph) (h : graphWFB g = true) :
    ∀ x, memKeyA g.adjacency x = memKeyA g.reverse x := by
  obtain ⟨_, _, h3, h4, _, _⟩ := graphWFB_parts g h
  intro x
  cases ha : memKeyA g.adjacency x with
  | true =>
      obtain ⟨b, hb⟩ := (memKeyA_true_iff _ _).mp ha
      exact (h4 (x, b) hb).symm
  | false =>
      cases hr : memKeyA g.reverse x with
      | false => rfl
      | true =>
          obtain ⟨b, hb⟩ := (memKeyA_true_iff _ _).mp hr
          rw [h3 (x, b) hb] at ha
          exact ha.symm

theorem wf_keysOrTargets (g : IndexedGraph) (h : graphWFB g = true) :
    ∀ x, keysOrTargets g.adjacency x = memKeyA g.adjacency x := by
  obtain ⟨_, h2, _, _, _, _⟩ := graphWFB_parts g h
  intro x
  cases hk : keysOrTargets g.adjacency x with
  | true =>
      unfold keysOrTargets at hk
      rw [List.any_eq_true] at hk
      obtain ⟨p, hp, hcase⟩ := hk
      rw [Bool.or_eq_true, decide_eq_true_eq] at hcase
      rcases hcase with hx | hx
      · subst hx
        exact ((memKeyA_true_iff _ _).mpr
          ⟨p.2, by rw [Prod.mk.eta]; exact hp⟩).symm
      · obtain ⟨r, hr⟩ := (memKeyA_true_iff _ _).mp hx
        exact ((h2 p hp).2.2 (x, r) hr).2.2.symm
  | false =>
      cases hm : memKeyA g.adjacency x with
      | false => rfl
      | true =>
          obtain ⟨b, hb⟩ := (memKeyA_true_iff _ _).mp hm
          unfold keysOrTargets at hk
          rw [List.any_eq_false] at hk
          have h9 := hk (x, b) hb
          simp at h9

theorem loadLines_saveLines (g : IndexedGraph)
    (hcl : ∀ p ∈ g.adjacency, cleanTok p.1 = true ∧
      ∀ q ∈ p.2, cleanTok q.1 = true ∧ cleanTok q.2 = true) :
    LoadLines (SaveLines g) = g.adjacency.foldl lineStep emptyGraph := by
  unfold LoadLines SaveLines
  rw [List.foldl_map]
  refine foldl_congr_mem _ _ _ _ ?_
  intro p hp st
  obtain ⟨key, nbrs⟩ := p
  exact loadLine_saveLine st key nbrs (hcl (key, nbrs) hp).1
    (fun q hq => (hcl (key, nbrs) hp).2 q hq)

/-- Error outcomes of the store operations. -/
inductive StoreErr where
  | notFound : StoreErr
  | alreadyExists : StoreErr
deriving DecidableEq

/-- The configured patch-null policy. -/
inductive PatchNull where
  | store : PatchNull
  | delete : PatchNull
deriving DecidableEq

/-- The Go test value equal nil on a decoded JSON value. -/
def isNullB : JVal → Bool
  | .null => true
  | _ => false

/-- State of the file-per-entity backend: the document files keyed by
entity type and id, and the per-entity next-id files. -/
structure JSONFileStore where
  files : List ((Str × Int) × Doc)
  nextId : List (Str × Int)

/-- The store produced by NewJSONFileStore on a fresh directory. -/
def emptyFileStore : JSONFileStore := ⟨[], []⟩

/-- Translation of JSONFileStore.NextID: read the next-id file (defaulting
to one), persist the incremented value, return the value read. -/
def fileNextID (s : JSONFileStore) (entity : Str) : Int × JSONFileStore :=
  let nextID := (lookupA s.nextId entity).getD 1
  (nextID, { s with nextId := insertA s.nextId entity (nextID + 1) })

/-- Translation of JSONFileStore.Exists. -/
def fileExists (s : JSONFileStore) (entity : Str) (id : Int) : Bool :=
  memKeyA s.files (entity, id)

/-- Translation of JSONFileStore.Create.  The returned triple carries the
allocated id, the new store state, and the caller-visible state of the
document argument, which the code mutates by assigning the id field. -/
def fileCreate (s : JSONFileStore) (entity : Str) (data : Doc) :
    Int × JSONFileStore × Doc :=
  let (id, s1) := fileNextID s entity
  let d1 := insertA data (chars "id") (.num id)
  (id, { s1 with files := insertA s1.files (entity, id) d1 }, d1)

/-- Translation of JSONFileStore.Update: not-found documents are rejected
before the argument is touched; otherwise the id is written into the
caller's map and the file is replaced. -/
def fileUpdate (s : JSONFileStore) (entity : Str) (id : Int) (data : Doc) :
    Except StoreErr JSONFileStore × Doc :=
  if fileExists s entity id then
    let d1 := insertA data (chars "id") (.num id)
    (.ok { s with files := insertA s.files (entity, id) d1 }, d1)
  else (.error .notFound, data)

/-- Translation of JSONFileStore.Save: an occupied id is rejected before the
argument is touched; otherwise the id is written into the caller's map and
the file is created.  The next-id file is not consulted or updated. -/
def fileSave (s : JSONFileStore) (entity : Str) (id : Int) (data : Doc) :
    Except StoreErr JSONFileStore × Doc :=
  if fileExists s entity id then (.error .alreadyExists, data)
  else
    let d1 := insertA data (chars "id") (.num id)
    (.ok { s with files := insertA s.files (entity, id) d1 }, d1)

/-- Translation of JSONFileStore.Get. -/
def fileGet (s : JSONFileStore) (entity : Str) (id : Int) :
    Except StoreErr Doc :=
  match lookupA s.files (entity, id) with
  | some d => .ok d
  | none => .error .notFound

/-- The merge loop of JSONFileStore.Patch: every key other than id is
assigned, null values included; the configured null policy is not consulted. -/
def jsonFilePatchMerge (existing patchData : Doc) : Doc :=
  patchData.foldl (fun acc kv =>
    if kv.1 = chars "id" then acc else insertA acc kv.1 kv.2) existing

/-- The merge loop of SQLiteStore.Patch: every key other than id is deleted
when its value is null and assigned otherwise; the configured null policy is
not consulted. -/
def sqlitePatchMergeLoop (existing updates : Doc) : Doc :=
  updates.foldl (fun acc kv =>
    if kv.1 = chars "id" then acc
    else if isNullB kv.2 then eraseA acc kv.1
    else insertA acc kv.1 kv.2) existing

/-- One iteration of the merge loop of Server.handlePatch. -/
def serverPatchStep (policy : PatchNull) (acc : Doc) (kv : Str × JVal) : Doc :=
  if kv.1 = chars "id" then acc
  else if isNullB kv.2 = true ∧ policy = PatchNull.delete then eraseA acc kv.1
  else insertA acc kv.1 kv.2

/-- The merge loop of Server.handlePatch: a null value deletes the field
exactly when the configured policy is delete, and is assigned otherwise. -/
def serverPatchMerge (policy : PatchNull) (existing patchData : Doc) : Doc :=
  patchData.foldl (serverPatchStep policy) existing

/-- The patch semantics stated by the design notes, as a per-key condition
on the merge result: the id key is ignored, keys absent from the patch are
untouched, a null value deletes under the delete policy and is stored under
the store policy, and every other value is assigned. -/
def PatchSpecOK (policy : PatchNull) (existing patchData result : Doc) : Prop :=
  ∀ k : Str,
    lookupA result k =
      (if k = chars "id" then lookupA existing k
       else
         match lookupA patchData k with
         | none => lookupA existing k
         | some v =>
             if isNullB v = true ∧ policy = PatchNull.delete then none
             else some v)

/-- State of the SQLite backend: the entities table, the graph_edges table
and the entity_sequences table. -/
structure SQLiteStore where
  entities : List ((Str × Int) × Doc)
  edges : List EdgeRow
  seq : List (Str × Int)

/-- The store produced by NewSQLiteStore on a fresh database. -/
def emptySQLiteStore : SQLiteStore := ⟨[], [], []⟩

/-- The sequence upsert of SQLiteStore.Create: a fresh entity starts at one,
otherwise the stored value is incremented; the resulting value is returned. -/
def seqCreateNext (seq : List (Str × Int)) (entity : Str) :
    Int × List (Str × Int) :=
  match lookupA seq entity with
  | none => (1, insertA seq entity 1)
  | some c => (c + 1, insertA seq entity (c + 1))

/-- The sequence upsert of SQLiteStore.Save: the inserted value is the saved
id plus one, and on conflict the stored value becomes the maximum of the
current value and the inserted value plus one. -/
def seqSaveBump (seq : List (Str × Int)) (entity : Str) (id : Int) :
    List (Str × Int) :=
  match lookupA seq entity with
  | none => insertA seq entity (id + 1)
  | some c => insertA seq entity (max c (id + 1 + 1))

/-- Translation of SQLiteStore.Create: allocate the id from the sequence
table, copy the document before assigning the id (the caller's map is
returned unchanged as the third component), insert the row and synchronise
the edges in the same transaction. -/
def sqliteCreate (s : SQLiteStore) (entity : Str) (data : Doc) :
    Int × SQLiteStore × Doc :=
  let (nextID, seq1) := seqCreateNext s.seq entity
  let dataCopy := insertA data (chars "id") (.num nextID)
  (nextID,
   { entities := insertA s.entities (entity, nextID) dataCopy,
     edges := syncGraphEdges s.edges entity nextID dataCopy,
     seq := seq1 },
   data)

/-- Translation of SQLiteStore.Save: an occupied id is rejected; otherwise
the sequence is bumped, the copied document is inserted and the edges are
synchronised in the same transaction. -/
def sqliteSave (s : SQLiteStore) (entity : Str) (id : Int) (data : Doc) :
    Except StoreErr SQLiteStore :=
  if memKeyA s.entities (entity, id) then .error .alreadyExists
  else
    let dataCopy := insertA data (chars "id") (.num id)
    .ok { entities := insertA s.entities (entity, id) dataCopy,
          edges := syncGraphEdges s.edges entity id dataCopy,
          seq := seqSaveBump s.seq entity id }

/-- Translation of SQLiteStore.Update: a missing row is rejected, otherwise
the copied document replaces the row and the edges are synchronised. -/
def sqliteUpdate (s : SQLiteStore) (entity : Str) (id : Int) (data : Doc) :
    Except StoreErr SQLiteStore :=
  if memKeyA s.entities (entity, id) then
    let dataCopy := insertA data (chars "id") (.num id)
    .ok { entities := insertA s.entities (entity, id) dataCopy,
          edges := syncGraphEdges s.edges entity id dataCopy,
          seq := s.seq }
  else .error .notFound

/-- Insertion of one element into a list sorted by a boolean comparison. -/
def insertSorted {α : Type} (le : α → α → Bool) (x : α) : List α → List α
  | [] => [x]
  | y :: ys => if le x y then x :: y :: ys else y :: insertSorted le x ys

/-- Insertion sort by a boolean comparison, modelling an ordered enumeration
(the SQL ORDER BY clause, or the sorted directory listing of os.ReadDir). -/
def sortByB {α : Type} (le : α → α → Bool) : List α → List α
  | [] => []
  | x :: xs => insertSorted le x (sortByB le xs)

/-- Lexicographic byte comparison of two strings, the order in which
os.ReadDir returns directory entries. -/
def lexLe : Str → Str → Bool
  | [], _ => true
  | _ :: _, [] => false
  | a :: as, b :: bs =>
      if a < b then true else if b < a then false else lexLe as bs

/-- The rows of the SQLite List query: the entity's rows in ascending id
order, per the ORDER BY clause. -/
def sqliteListRows (s : SQLiteStore) (entity : Str) : List (Int × Doc) :=
  sortByB (fun a b => a.1 ≤ b.1)
    ((s.entities.filter (fun kv => kv.1.1 = entity)).map
      (fun kv => (kv.1.2, kv.2)))

/-- Translation of SQLiteStore.List. -/
def sqliteList (s : SQLiteStore) (entity : Str) : List Doc :=
  (sqliteListRows s entity).map Prod.snd

/-- The file name of a stored document, the decimal id with extension. -/
def fileNameOf (i : Int) : Str := intRepr i ++ chars ".json"

/-- The entity directory as os.ReadDir sees it: one file per stored
document plus the next-id file when present. -/
def dirListing (s : JSONFileStore) (entity : Str) : List (Str × Option Doc) :=
  ((s.files.filter (fun kv => kv.1.1 = entity)).map
    (fun kv => (fileNameOf kv.1.2, some kv.2))) ++
  (if memKeyA s.nextId entity then [(chars "_next_id.json", none)] else [])

/-- The directory listing in the sorted order returned by os.ReadDir. -/
def sortedListing (s : JSONFileStore) (entity : Str) : List (Str × Option Doc) :=
  sortByB (fun a b => lexLe a.1 b.1) (dirListing s entity)

/-- The file name extension from the final dot, as filepath.Ext computes it. -/
def extOf (name : Str) : Str :=
  if '.' ∈ name then
    '.' :: (name.reverse.takeWhile (fun c => ¬ c = '.')).reverse
  else []

/-- Translation of JSONFileStore.List: the sorted directory entries with
non-json files, the next-id file and unreadable files skipped. -/
def fileList (s : JSONFileStore) (entity : Str) : List Doc :=
  (sortedListing s entity).filterMap (fun p =>
    if ¬ extOf p.1 = chars ".json" then none
    else if p.1 = chars "_next_id.json" then none
    else p.2)

/-- The id field of a listed document, when it is a number. -/
def docIdQ (d : Doc) : Option Rat :=
  match lookupA d (chars "id") with
  | some (.num q) => some q
  | _ => none

theorem mem_insertSorted {α : Type} (le : α → α → Bool) (x a : α)
    (l : List α) : a ∈ insertSorted le x l ↔ a = x ∨ a ∈ l := by
  induction l with
  | nil => simp [insertSorted]
  | cons y ys ih =>
      by_cases h : le x y
      · simp [insertSorted, h]
      · simp only [insertSorted, if_neg h, List.mem_cons, ih]
        tauto

theorem pairwise_insertSorted {α : Type} (le : α → α → Bool)
    (total : ∀ a b, le a b = true ∨ le b a = true)
    (trans : ∀ a b c, le a b = true → le b c = true → le a c = true)
    (x : α) (l : List α) (h : l.Pairwise (fun a b => le a b = true)) :
    (insertSorted le x l).Pairwise (fun a b => le a b = true) := by
  induction l with
  | nil => simp [insertSorted]
  | cons y ys ih =>
      rcases List.pairwise_cons.mp h with ⟨hy, hys⟩
      by_cases hxy : le x y
      · simp only [insertSorted, if_pos hxy]
        refine List.pairwise_cons.mpr ⟨?_, h⟩
        intro b hb
        rcases List.mem_cons.mp hb with rfl | hb
        · exact hxy
        · exact trans x y b hxy (hy b hb)
      · simp only [insertSorted, if_neg hxy]
        refine List.pairwise_cons.mpr ⟨?_, ih hys⟩
        intro b hb
        rcases (mem_insertSorted le x b ys).mp hb with rfl | hb
        · rcases total b y with hh | hh
          · exact absurd hh hxy
          · exact hh
        · exact hy b hb

theorem pairwise_sortByB {α : Type} (le : α → α → Bool)
    (total : ∀ a b, le a b = true ∨ le b a = true)
    (trans : ∀ a b c, le a b = true → le b c = true → le a c = true)
    (l : List α) : (sortByB le l).Pairwise (fun a b => le a b = true) := by
  induction l with
  | nil => simp [sortByB]
  | cons x xs ih => exact pairwise_insertSorted le total trans x _ ih

theorem lexLe_cons_iff (a b : Char) (as bs : Str) :
    lexLe (a :: as) (b :: bs) = true ↔ a < b ∨ (a = b ∧ lexLe as bs = true) := by
  by_cases h1 : a < b
  · simp [lexLe, h1]
  · by_cases h2 : b < a
    · simp [lexLe, h1, h2, ne_of_gt h2]
    · have hab : a = b := le_antisymm (not_lt.mp h2) (not_lt.mp h1)
      simp [lexLe, h1, h2, hab]

theorem lexLe_total : ∀ a b : Str, lexLe a b = true ∨ lexLe b a = true
  | [], _ => Or.inl rfl
  | _ :: _, [] => Or.inr rfl
  | a :: as, b :: bs => by
      rcases lt_trichotomy a b with h | h | h
      · exact Or.inl ((lexLe_cons_iff a b as bs).mpr (Or.inl h))
      · subst h
        rcases lexLe_total as bs with ih | ih
        · exact Or.inl ((lexLe_cons_iff a a as bs).mpr (Or.inr ⟨rfl, ih⟩))
        · exact Or.inr ((lexLe_cons_iff a a bs as).mpr (Or.inr ⟨rfl, ih⟩))
      · exact Or.inr ((lexLe_cons_iff b a bs as).mpr (Or.inl h))

theorem lexLe_trans : ∀ a b c : Str,
    lexLe a b = true → lexLe b c = true → lexLe a c = true
  | [], _, _, _, _ => rfl
  | _ :: _, [], _, h, _ => by simp [lexLe] at h
  | _ :: _, _ :: _, [], _, h2 => by simp [lexLe] at h2
  | a :: as, b :: bs, c :: cs, h1, h2 => by
      rcases (lexLe_cons_iff a b as bs).mp h1 with hab | ⟨hab, hab2⟩ <;>
        rcases (lexLe_cons_iff b c bs cs).mp h2 with hbc | ⟨hbc, hbc2⟩
      · exact (lexLe_cons_iff a c as cs).mpr (Or.inl (lt_trans hab hbc))
      · exact (lexLe_cons_iff a c as cs).mpr (Or.inl (hbc ▸ hab))
      · exact (lexLe_cons_iff a c as cs).mpr (Or.inl (hab ▸ hbc))
      · exact (lexLe_cons_iff a c as cs).mpr
          (Or.inr ⟨hab.trans hbc, lexLe_trans as bs cs hab2 hbc2⟩)

theorem lookupA_serverPatchStep (policy : PatchNull) (acc : Doc)
    (kv : Str × JVal) (x : Str) :
    lookupA (serverPatchStep policy acc kv) x =
      if x = kv.1 ∧ ¬ kv.1 = chars "id" then
        (if isNullB kv.2 = true ∧ policy = PatchNull.delete then none
         else some kv.2)
      else lookupA acc x := by
  unfold serverPatchStep
  by_cases h1 : kv.1 = chars "id"
  · simp [h1]
  · by_cases h2 : isNullB kv.2 = true ∧ policy = PatchNull.delete
    · rw [if_neg h1, if_pos h2, lookupA_eraseA]
      by_cases hx : x = kv.1 <;> simp [hx, h1, h2]
    · rw [if_neg h1, if_neg h2, lookupA_insertA]
      by_cases hx : x = kv.1 <;> simp [hx, h1, h2]

theorem serverPatchMerge_spec (policy : PatchNull) (existing patchData : Doc)
    (hnd : (patchData.map Prod.fst).Nodup) :
    PatchSpecOK policy existing patchData
      (serverPatchMerge policy existing patchData) := by
  induction patchData generalizing existing with
  | nil =>
      intro k
      simp [serverPatchMerge, lookupA]
  | cons kv rest ih =>
      have hnd2 : kv.1 ∉ rest.map Prod.fst ∧ (rest.map Prod.fst).Nodup := by
        rw [List.map_cons, List.nodup_cons] at hnd
        exact hnd
      obtain ⟨hknotin, hndr⟩ := hnd2
      intro k
      have hmain := ih (serverPatchStep policy existing kv) hndr k
      rw [show serverPatchMerge policy existing (kv :: rest) =
            serverPatchMerge policy (serverPatchStep policy existing kv) rest
          from rfl]
      rw [hmain, lookupA_serverPatchStep]
      by_cases hid : k = chars "id"
      · subst hid
        have hcond : ¬ (chars "id" = kv.1 ∧ ¬ kv.1 = chars "id") := by
          rintro ⟨h1, h2⟩; exact h2 h1.symm
        simp [hcond]
      · rcases eq_or_ne kv.1 k with hk | hk
        · subst hk
          have hrest : lookupA rest kv.1 = none :=
            lookupA_eq_none_of_not_mem rest kv.1 hknotin
          simp [lookupA, hrest, hid]
        · have hcond : ¬ (k = kv.1 ∧ ¬ kv.1 = chars "id") := by
            rintro ⟨h1, _⟩; exact hk h1.symm
          simp [hcond, lookupA, hk, hid]

theorem jsonFilePatchMerge_as_store_policy (existing patchData : Doc) :
    jsonFilePatchMerge existing patchData =
      serverPatchMerge PatchNull.store existing patchData := by
  induction patchData generalizing existing with
  | nil => rfl
  | cons kv rest ih =>
      show jsonFilePatchMerge
          (if kv.1 = chars "id" then existing else insertA existing kv.1 kv.2)
          rest =
        serverPatchMerge PatchNull.store
          (serverPatchStep PatchNull.store existing kv) rest
      rw [ih]
      congr 1
      unfold serverPatchStep
      by_cases h : kv.1 = chars "id" <;> simp [h]

theorem sqlitePatchMergeLoop_as_delete_policy (existing patchData : Doc) :
    sqlitePatchMergeLoop existing patchData =
      serverPatchMerge PatchNull.delete existing patchData := by
  induction patchData generalizing existing with
  | nil => rfl
  | cons kv rest ih =>
      show sqlitePatchMergeLoop
          (if kv.1 = chars "id" then existing
           else if isNullB kv.2 then eraseA existing kv.1
           else insertA existing kv.1 kv.2) rest =
        serverPatchMerge PatchNull.delete
          (serverPatchStep PatchNull.delete existing kv) rest
      rw [ih]
      congr 1
      unfold serverPatchStep
      by_cases h : kv.1 = chars "id" <;>
        by_cases h2 : isNullB kv.2 <;> simp [h, h2]

end Olu

namespace OluClaims

open Olu

/-- The in-memory graph state in which users:2 carries its manager edge to
users:1, as left by an earlier synchronisation of that document. -/
def g0 : IndexedGraph :=
  ⟨[(chars "users:2", [(chars "users:1", chars "manager")]), (chars "users:1", [])],
   [(chars "users:2", []), (chars "users:1", [(chars "users:2", chars "manager")])],
   []⟩

/-- The updated document of users:2, whose manager reference now points to
users:99. -/
def dNew : Doc :=
  [(chars "name", .str (chars "E")),
   (chars "manager", .obj [(chars "type", .str (chars "REF")),
                           (chars "entity", .str (chars "users")),
                           (chars "id", .num 99)])]

/-- C1: on the mutation that redirects the manager reference of users:2 from
users:1 to users:99, the SQLite synchronisation replaces the out-edge set
(the old row is deleted), but the in-memory UpdateFromEntity only adds the
new edge: the stale edge users:2 to users:1 survives in the adjacency map. -/
theorem updateFromEntity_keeps_stale_edge :
    lookup2 (UpdateFromEntity g0 (chars "users") 2 dNew).adjacency
      (chars "users:2") (chars "users:1") = some (chars "manager") ∧
    lookup2 (UpdateFromEntity g0 (chars "users") 2 dNew).adjacency
      (chars "users:2") (chars "users:99") = some (chars "manager") ∧
    syncGraphEdges [⟨chars "users", 2, chars "users", 1, chars "manager"⟩]
      (chars "users") 2 dNew =
      [⟨chars "users", 2, chars "users", 99, chars "manager"⟩] := by
  refine ⟨by decide, by decide, by decide⟩

/-- C7 counterexample: the object with type REF, empty entity and id 5/2 is
accepted by IsReference (with the id truncated to 2), although the stated
predicate rejects it for all three of its conditions. -/
theorem isReference_accepts_bad_shape :
    (IsReference (.obj [(chars "type", .str (chars "REF")),
                        (chars "entity", .str []),
                        (chars "id", .num (5 / 2))])).isSome = true ∧
    refSpecB (.obj [(chars "type", .str (chars "REF")),
                    (chars "entity", .str []),
                    (chars "id", .num (5 / 2))]) = false := by
  constructor <;> decide

/-- C7 amended: IsReference recognises exactly the objects whose type field
is the string REF, whose entity field is a string (possibly empty), and
whose id field is numeric; no positivity or exactness condition is applied. -/
theorem isReference_characterisation (v : JVal) :
    (IsReference v).isSome = refShapeB v := by
  cases v with
  | obj m =>
      simp only [IsReference, refShapeB]
      cases htype : lookupA m (chars "type") with
      | none => rfl
      | some tv =>
          cases tv with
          | str typeVal =>
              cases hent : lookupA m (chars "entity") with
              | none => rfl
              | some ev =>
                  cases ev with
                  | str entityVal =>
                      cases hid : lookupA m (chars "id") with
                      | none => rfl
                      | some iv =>
                          rcases eq_or_ne typeVal (chars "REF") with h | h
                          · cases iv <;> simp [h]
                          · cases iv <;> simp [h]
                  | null => rfl
                  | bool b => rfl
                  | num q => rfl
                  | arr es => rfl
                  | obj f => rfl
          | null => rfl
          | bool b => rfl
          | num q => rfl
          | arr es => rfl
          | obj f => rfl
  | null => rfl
  | bool b => rfl
  | num q => rfl
  | str s => rfl
  | arr elems => rfl

/-- C5 amended: when both endpoints are present, every path returned by
FindPath starts at the source, ends at the target, follows existing
adjacency entries and has at most maxDepth nodes, hence at most
maxDepth minus one edges; and when no such path exists, the outcome is
no-path.  The bound is measured in nodes, not edges. -/
theorem findPath_spec (g : IndexedGraph) (frm tgt : Str) (d : Int)
    (hf : memKeyA g.adjacency frm = true)
    (ht : memKeyA g.adjacency tgt = true) :
    (∀ p, FindPath g frm tgt d = .ok p →
        validPathB g frm tgt p = true ∧ (p.length : Int) ≤ d) ∧
    ((¬ ∃ p, validPathB g frm tgt p = true ∧ (p.length : Int) ≤ d) →
        FindPath g frm tgt d = .error .noPath) := by
  have hun : FindPath g frm tgt d =
      (match bfsLoop g tgt d [[frm]] [frm] with
       | some p => .ok p
       | none => .error .noPath) := by
    simp [FindPath, hf, ht]
  have hinv : ∀ q ∈ ([[frm]] : List (List Str)),
      ¬ q = [] ∧ q.head? = some frm ∧ chainOkB g q = true := by
    intro q hq
    have : q = [frm] := by simpa using hq
    subst this
    exact ⟨by simp, rfl, rfl⟩
  constructor
  · intro p hp
    rw [hun] at hp
    cases hb : bfsLoop g tgt d [[frm]] [frm] with
    | none => rw [hb] at hp; exact Except.noConfusion hp
    | some q =>
        rw [hb] at hp
        have hq : q = p := by cases hp; rfl
        subst hq
        have hs := bfsLoop_sound g tgt frm d [[frm]] [frm] q hb hinv
        refine ⟨?_, hs.2.2.2.1⟩
        simp [validPathB, hs.2.1, hs.2.2.1, hs.2.2.2.2]
  · intro hno
    rw [hun]
    cases hb : bfsLoop g tgt d [[frm]] [frm] with
    | none => rfl
    | some q =>
        exfalso
        have hs := bfsLoop_sound g tgt frm d [[frm]] [frm] q hb hinv
        exact hno ⟨q, by simp [validPathB, hs.2.1, hs.2.2.1, hs.2.2.2.2],
          hs.2.2.2.1⟩

/-- The node a, used by the concrete graph examples. -/
def nodeA : Str := chars "a"

/-- The node b, used by the concrete graph examples. -/
def nodeB : Str := chars "b"

/-- A two-node graph with the single edge from a to b. -/
def gAB : IndexedGraph :=
  ⟨[(nodeA, [(nodeB, chars "r")]), (nodeB, [])],
   [(nodeA, []), (nodeB, [(nodeA, chars "r")])], []⟩

/-- A one-node graph holding only a. -/
def gA : IndexedGraph := ⟨[(nodeA, [])], [(nodeA, [])], []⟩

/-- C5 witness: the path query on the two-node graph at depth two. -/
theorem findPath_spec_witness :
    memKeyA gAB.adjacency nodeA = true ∧
    memKeyA gAB.adjacency nodeB = true ∧
    (∀ p, FindPath gAB nodeA nodeB 2 = .ok p →
        validPathB gAB nodeA nodeB p = true ∧ (p.length : Int) ≤ 2) :=
  ⟨by decide, by decide,
   (findPath_spec gAB nodeA nodeB 2 (by decide) (by decide)).1⟩

/-- C5 counterexample: a path of exactly one edge exists from a to b, yet
FindPath with max depth one prunes it and reports no-path, because the
depth bound is compared against the node count of the path. -/
theorem findPath_prunes_exact_depth :
    validPathB gAB nodeA nodeB [nodeA, nodeB] = true ∧
    (([nodeA, nodeB].length : Int) - 1 = 1) ∧
    FindPath gAB nodeA nodeB 1 = .error .noPath := by
  refine ⟨by decide, by decide, ?_⟩
  simp only [FindPath]
  rw [if_neg (by decide), if_neg (by decide)]
  rw [bfsLoop_cons, if_neg (by decide), if_neg (by decide)]
  rw [show (expand [nodeA]
      ((lookupA gAB.adjacency (([nodeA] : List Str).getLast?.getD [])).getD [])
      [] [nodeA]) = ([[nodeA, nodeB]], [nodeB, nodeA]) from by decide]
  rw [bfsLoop_cons, if_pos (by decide), bfsLoop_nil]

/-- C6 amended: when the node exists and the depth bound is at least one,
the path query from a node to itself returns the single-node path. -/
theorem findPath_self (g : IndexedGraph) (a : Str) (d : Int)
    (ha : memKeyA g.adjacency a = true) (hd : 1 ≤ d) :
    FindPath g a a d = .ok [a] := by
  simp only [FindPath]
  rw [if_neg (by simp [ha]), if_neg (by simp [ha])]
  rw [bfsLoop_cons, if_neg (by
    simp only [List.length_cons, List.length_nil, Nat.cast_one,
      Nat.cast_zero, not_lt]
    omega)]
  rw [if_pos (by simp)]

/-- C6 witness: the self-path query at a concrete node and depth. -/
theorem findPath_self_witness :
    memKeyA gA.adjacency nodeA = true ∧ (1 : Int) ≤ 5 ∧
    FindPath gA nodeA nodeA 5 = .ok [nodeA] :=
  ⟨by decide, by decide, findPath_self gA nodeA 5 (by decide) (by decide)⟩

/-- C6 counterexample: at depth zero the self-path query fails with no-path
although the claim requires the single-node path for every depth at least
zero: the initial one-node path is pruned because one exceeds zero. -/
theorem findPath_self_zero_depth :
    memKeyA gA.adjacency nodeA = true ∧
    FindPath gA nodeA nodeA 0 = .error .noPath := by
  refine ⟨by decide, ?_⟩
  simp only [FindPath]
  rw [if_neg (by decide), if_neg (by decide)]
  rw [bfsLoop_cons, if_pos (by decide), bfsLoop_nil]

/-- C9: every in-memory graph operation preserves the mirror invariant
between the adjacency map and the reverse map, and Load and Clear establish
it outright. -/
theorem graph_ops_preserve_mirror :
    (∀ g n ty, MirrorInv g → MirrorInv (AddNode g n ty)) ∧
    (∀ g f t r, MirrorInv g → MirrorInv (AddEdge g f t r)) ∧
    (∀ g n, MirrorInv g → MirrorInv (RemoveNode g n)) ∧
    (∀ g f t, MirrorInv g → MirrorInv (RemoveEdge g f t)) ∧
    (∀ g e i d, MirrorInv g → MirrorInv (UpdateFromEntity g e i d)) ∧
    (∀ lines, MirrorInv (LoadLines lines)) ∧
    (∀ g, MirrorInv (Clear g)) :=
  ⟨fun g n ty h => mirror_addNode g n ty h,
   fun g f t r h => mirror_addEdge g f t r h,
   fun g n h => mirror_removeNode g n h,
   fun g f t h => mirror_removeEdge g f t h,
   fun g e i d h => mirror_updateFromEntity g e i d h,
   mirror_loadLines,
   fun _ => mirror_empty⟩

/-- C9 witness: the invariant on the empty graph and its preservation by a
concrete edge insertion. -/
theorem graph_ops_preserve_mirror_witness :
    MirrorInv emptyGraph ∧
    MirrorInv (AddEdge emptyGraph nodeA nodeB (chars "r")) :=
  ⟨mirror_empty,
   graph_ops_preserve_mirror.2.1 emptyGraph nodeA nodeB (chars "r")
     mirror_empty⟩

/-- A document without an id field, as a client submits it to save. -/
def docD : Doc := [(chars "name", .str (chars "D"))]

/-- A second client document, later submitted to create. -/
def docE : Doc := [(chars "name", .str (chars "E"))]

/-- The file store state after saving docD under users id one. -/
def sAfterSave : JSONFileStore :=
  ⟨[((chars "users", 1), insertA docD (chars "id") (.num 1))], []⟩

/-- C2: on the file backend, save does not update the next-id sequence, so
the very next create allocates the same id and silently overwrites the saved
document; on the SQLite backend the sequence is bumped past the conflict but
to a value that makes the next create return 102, not the 101 the claim
gives as its example. -/
theorem fileSave_sequence_not_updated :
    (fileSave emptyFileStore (chars "users") 1 docD).1 = .ok sAfterSave ∧
    sAfterSave.nextId = [] ∧
    (fileCreate sAfterSave (chars "users") docE).1 = 1 ∧
    lookupA (fileCreate sAfterSave (chars "users") docE).2.1.files
      (chars "users", 1) = some (insertA docE (chars "id") (.num 1)) ∧
    ((sqliteSave emptySQLiteStore (chars "users") 100 docD).map
      (fun st => (sqliteCreate st (chars "users") docE).1)) = .ok 102 := by
  refine ⟨rfl, rfl, rfl, rfl, rfl⟩

/-- C10: the file backend's Create, Update and Save write the id into the
caller's document map before persisting, while the SQLite Create copies the
map and returns the caller's argument unchanged; a caller document lacking
an id field is therefore observably mutated by the file backend. -/
theorem mutation_frames :
    (∀ s e d, (fileCreate s e d).2.2 =
        insertA d (chars "id") (.num ((fileCreate s e d).1 : Int))) ∧
    (∀ s e i d, fileExists s e i = true →
        (fileUpdate s e i d).2 = insertA d (chars "id") (.num (i : Int))) ∧
    (∀ s e i d, fileExists s e i = false →
        (fileSave s e i d).2 = insertA d (chars "id") (.num (i : Int))) ∧
    (∀ s e d, (sqliteCreate s e d).2.2 = d) ∧
    (∀ s e d, lookupA d (chars "id") = none → ¬ (fileCreate s e d).2.2 = d) := by
  refine ⟨fun s e d => rfl, ?_, ?_, fun s e d => rfl, ?_⟩
  · intro s e i d h
    simp [fileUpdate, h]
  · intro s e i d h
    simp [fileSave, h]
  · intro s e d h heq
    have h1 : (fileCreate s e d).2.2 =
        insertA d (chars "id") (.num ((fileCreate s e d).1 : Int)) := rfl
    rw [h1] at heq
    have h2 := congrArg (fun m => lookupA m (chars "id")) heq
    simp [lookupA_insertA, h] at h2

/-- C10 witness: frame behaviour at a concrete store and document. -/
theorem mutation_frames_witness :
    fileExists sAfterSave (chars "users") 1 = true ∧
    (fileUpdate sAfterSave (chars "users") 1 docE).2 =
      insertA docE (chars "id") (.num (1 : Int)) ∧
    lookupA docE (chars "id") = none ∧
    ¬ (fileCreate emptyFileStore (chars "users") docE).2.2 = docE := by
  refine ⟨rfl, mutation_frames.2.1 sAfterSave (chars "users") 1 docE rfl,
    rfl, mutation_frames.2.2.2.2 emptyFileStore (chars "users") docE rfl⟩

/-- The stored document a patch is applied to. -/
def existingP : Doc :=
  [(chars "name", .str (chars "A")), (chars "email", .str (chars "a@x")),
   (chars "id", .num 1)]

/-- A patch that sets the email field to null. -/
def patchP : Doc := [(chars "email", .null)]

/-- C4 counterexample: the store-level Patch of the SQLite backend deletes a
null-valued field even under the store policy, and the store-level Patch of
the file backend keeps it even under the delete policy; neither consults the
configured policy, so the claimed policy-dependent behaviour fails on both. -/
theorem storePatch_ignores_policy :
    lookupA (sqlitePatchMergeLoop existingP patchP) (chars "email") = none ∧
    lookupA (jsonFilePatchMerge existingP patchP) (chars "email") =
      some .null ∧
    ¬ PatchSpecOK .store existingP patchP
        (sqlitePatchMergeLoop existingP patchP) ∧
    ¬ PatchSpecOK .delete existingP patchP
        (jsonFilePatchMerge existingP patchP) := by
  refine ⟨rfl, rfl, ?_, ?_⟩
  · intro h
    have h2 : (none : Option JVal) = some .null := h (chars "email")
    exact Option.noConfusion h2
  · intro h
    have h2 : (some JVal.null : Option JVal) = none := h (chars "email")
    exact Option.noConfusion h2

/-- C4 amended: the HTTP patch handler merge satisfies the stated patch
semantics for the configured policy; the file backend's store-level merge
always behaves as the store policy and the SQLite backend's store-level
merge always behaves as the delete policy, regardless of configuration; a
patch with an empty body leaves the document unchanged. -/
theorem patch_merge_behaviour :
    (∀ policy existing patchData, (List.map Prod.fst patchData).Nodup →
        PatchSpecOK policy existing patchData
          (serverPatchMerge policy existing patchData)) ∧
    (∀ existing patchData, jsonFilePatchMerge existing patchData =
        serverPatchMerge PatchNull.store existing patchData) ∧
    (∀ existing patchData, sqlitePatchMergeLoop existing patchData =
        serverPatchMerge PatchNull.delete existing patchData) ∧
    (∀ policy existing, serverPatchMerge policy existing [] = existing) :=
  ⟨serverPatchMerge_spec, jsonFilePatchMerge_as_store_policy,
   sqlitePatchMergeLoop_as_delete_policy, fun _ _ => rfl⟩

/-- C4 witness: the handler merge at a concrete document, patch and policy. -/
theorem patch_merge_behaviour_witness :
    (List.map Prod.fst patchP).Nodup ∧
    PatchSpecOK .delete existingP patchP
      (serverPatchMerge .delete existingP patchP) := by
  refine ⟨by decide, patch_merge_behaviour.1 .delete existingP patchP (by decide)⟩

/-- A stored users document with id two. -/
def doc2L : Doc := [(chars "id", .num 2), (chars "name", .str (chars "B"))]

/-- A stored users document with id ten. -/
def doc10L : Doc := [(chars "id", .num 10), (chars "name", .str (chars "A"))]

/-- A file store holding users 2 and 10 plus the next-id file. -/
def sFileL : JSONFileStore :=
  ⟨[((chars "users", 2), doc2L), ((chars "users", 10), doc10L)],
   [(chars "users", 11)]⟩

/-- A SQLite store holding the same two users rows. -/
def sSqlL : SQLiteStore :=
  ⟨[((chars "users", 2), doc2L), ((chars "users", 10), doc10L)], [], []⟩

/-- C8 counterexample: with ids 2 and 10 stored, the file backend lists the
document with id 10 first, because the directory enumeration is
lexicographic on file names, while the SQLite backend lists id 2 first; the
two orders differ, so list is not id-ascending on both backends. -/
theorem fileList_not_id_ascending :
    (fileList sFileL (chars "users")).map docIdQ = [some 10, some 2] ∧
    (sqliteList sSqlL (chars "users")).map docIdQ = [some 2, some 10] ∧
    ¬ ([some (10 : Rat), some 2] = [some 2, some 10]) := by
  refine ⟨by decide, by decide, by decide⟩

/-- C8 amended: the SQLite List query returns rows in ascending id order,
while the file backend returns documents in the sorted directory order,
which is lexicographic on the decimal file names and coincides with
ascending ids only when the decimal representations have equal length. -/
theorem list_query_order (s : SQLiteStore) (sf : JSONFileStore) (e : Str) :
    List.Pairwise (fun (a b : Int × Doc) => a.1 ≤ b.1) (sqliteListRows s e) ∧
    List.Pairwise (fun (p q : Str × Option Doc) => lexLe p.1 q.1 = true)
      (sortedListing sf e) := by
  constructor
  · have h := pairwise_sortByB (fun (a b : Int × Doc) => decide (a.1 ≤ b.1))
      (fun a b => by
        rcases Int.le_total a.1 b.1 with h | h <;> simp [h])
      (fun a b c h1 h2 => by
        simp only [decide_eq_true_eq] at h1 h2 ⊢
        exact le_trans h1 h2)
      ((s.entities.filter (fun kv => kv.1.1 = e)).map
        (fun kv => (kv.1.2, kv.2)))
    refine List.Pairwise.imp ?_ h
    intro a b hab
    simpa using hab
  · exact pairwise_sortByB (fun (p q : Str × Option Doc) => lexLe p.1 q.1)
      (fun a b => lexLe_total a.1 b.1)
      (fun a b c h1 h2 => lexLe_trans a.1 b.1 c.1 h1 h2)
      (dirListing sf e)

/-- Witness graph for the save/load round trip: two colon-free nodes a and b
with one edge a -b labelled r, reverse map mirrored. -/
def gRT : IndexedGraph :=
  ⟨[(chars "a", [(chars "b", chars "r")]), (chars "b", [])],
   [(chars "a", []), (chars "b", [(chars "a", chars "r")])], []⟩

/-- A graph state as UpdateFromEntity actually builds it: node ids of the
form entity:id, which contain the colon the save format uses as separator. -/
def gColon : IndexedGraph :=
  ⟨[(chars "a:1", [(chars "b:2", chars "r")]), (chars "b:2", [])],
   [(chars "a:1", []), (chars "b:2", [(chars "a:1", chars "r")])], []⟩

/-- C3 (amended): for every graph state that is well formed for persistence —
mirrored maps with unique keys whose node identifiers and relationship names
are free of colons and whitespace, every target also being a source key —
Save followed by Load reproduces the adjacency map and the reverse map
exactly, as maps: same keys, same entries. -/
theorem save_load_roundtrip (g : IndexedGraph) (hwf : graphWFB g = true) :
    (∀ u v, lookup2 (LoadLines (SaveLines g)).adjacency u v =
        lookup2 g.adjacency u v) ∧
    (∀ v u, lookup2 (LoadLines (SaveLines g)).reverse v u =
        lookup2 g.reverse v u) ∧
    (∀ x, memKeyA (LoadLines (SaveLines g)).adjacency x =
        memKeyA g.adjacency x) ∧
    (∀ x, memKeyA (LoadLines (SaveLines g)).reverse x =
        memKeyA g.reverse x) := by
  obtain ⟨h1, h2, h3, h4, h5, h6⟩ := graphWFB_parts g hwf
  have hload : LoadLines (SaveLines g) =
      g.adjacency.foldl lineStep emptyGraph :=
    loadLines_saveLines g (fun p hp =>
      ⟨(h2 p hp).1, fun q hq =>
        ⟨((h2 p hp).2.2 q hq).1, ((h2 p hp).2.2 q hq).2.1⟩⟩)
  obtain ⟨c1, c2, c3, c4⟩ :=
    linesFold_char g.adjacency emptyGraph h1
      (fun p hp => (h2 p hp).2.1)
      (fun y => rfl)
      (fun p hp v => ⟨rfl, rfl⟩)
  rw [hload]
  refine ⟨?_, ?_, ?_, ?_⟩
  · intro u v
    rw [c3 u v]
    unfold lookup2
    cases hl : lookupA g.adjacency u <;> rfl
  · intro v u
    rw [c4 v u, show lookup2 g.reverse v u = lookup2 g.adjacency u v from
      wf_mirror g hwf u v]
    unfold lookup2
    cases hl : lookupA g.adjacency u <;> rfl
  · intro x
    rw [c2 x, wf_keysOrTargets g hwf x]
    exact Bool.false_or _
  · intro x
    rw [← c1 x, c2 x, wf_keysOrTargets g hwf x, wf_dom g hwf x]
    exact Bool.false_or _

/-- C3 witness: on a concrete well-formed two-node graph the round trip
reproduces the stored edge in both maps. -/
theorem save_load_roundtrip_witness :
    graphWFB gRT = true ∧
    lookup2 (LoadLines (SaveLines gRT)).adjacency (chars "a") (chars "b") =
      lookup2 gRT.adjacency (chars "a") (chars "b") ∧
    lookup2 (LoadLines (SaveLines gRT)).reverse (chars "b") (chars "a") =
      lookup2 gRT.reverse (chars "b") (chars "a") :=
  ⟨by decide,
   (save_load_roundtrip gRT (by decide)).1 (chars "a") (chars "b"),
   (save_load_roundtrip gRT (by decide)).2.1 (chars "b") (chars "a")⟩

/-- C3 counterexample to the claim as stated: on the node ids the
application actually uses, which contain a colon, the edge written by Save
is lost by Load, because Load splits the line and each neighbour token at
the FIRST colon. -/
theorem save_load_loses_colon_ids :
    lookup2 gColon.adjacency (chars "a:1") (chars "b:2") =
      some (chars "r") ∧
    lookup2 (LoadLines (SaveLines gColon)).adjacency
      (chars "a:1") (chars "b:2") = none := by
  constructor
  · decide
  · decide

end OluClaims
